import Mathlib

/-!
Verification development for the `mash` multi-shell multiplexer.

The Rust sources are shallowly embedded: byte strings become `List Nat`
(each element a `u8` value), Rust `String`s handled as text become
`List Char`, `HashMap`s become either association lists or functions with
a default, and fallible code returns `Option`/`Except`.  Loops whose
termination is data-driven are written with an explicit fuel argument that
the wrapper instantiates with a provably sufficient bound, so that every
definition is executable by the kernel.

OS-level effects (PTY file descriptors, signals, terminal attributes) are
out of scope; functions that write to the PTY or the console instead
return the transcript of written byte strings.  ANSI color styling is the
identity here (`color_style = None`), which only affects console bytes,
not structure.
-/

/-- Bytes of an ASCII string literal (code points; equals UTF-8 on ASCII). -/
def bytesOf (s : String) : List Nat :=
  s.data.map Char.toNat

/-- Characters of a string literal. -/
def charsOf (s : String) : List Char :=
  s.data

/-- Whether `pat` occurs as a contiguous infix of `hay`; embeds the Rust
idiom `hay.windows(pat.len()).any(|w| w == pat)` for nonempty `pat`. -/
def containsBytes (pat : List Nat) : List Nat → Bool
  | [] => pat.isEmpty
  | hay@(_ :: t) => pat.isPrefixOf hay || containsBytes pat t

/-- Index of the first occurrence of `pat` in `hay`; embeds
`hay.windows(pat.len()).position(|w| w == pat)` for nonempty `pat`. -/
def firstSubstrIdx (pat : List Nat) : List Nat → Option Nat
  | [] => if pat.isEmpty then some 0 else none
  | hay@(_ :: t) =>
    if pat.isPrefixOf hay then some 0
    else (firstSubstrIdx pat t).map (· + 1)

/-- Split off the first `\n`-terminated line: returns the line including
its trailing newline byte and the rest of the buffer.  Embeds
`read_buffer.iter().position(|&b| b == b'\n')` plus the two slicings. -/
def splitFirstLine : List Nat → Option (List Nat × List Nat)
  | [] => none
  | b :: rest =>
    if b = 10 then some ([10], rest)
    else
      match splitFirstLine rest with
      | some (l, r) => some (b :: l, r)
      | none => none

/-- Position of the last newline byte, as in
`read_buffer.iter().rposition(|&b| b == b'\n')`. -/
def rfindNl : List Nat → Option Nat
  | [] => none
  | b :: t =>
    match rfindNl t with
    | some i => some (i + 1)
    | none => if b = 10 then some 0 else none

/-- Decimal digit bytes of `n / 10 ^ k`-style expansion, most significant
first, with explicit fuel (`fuel ≥ n` always suffices). -/
def natDigitsAux : Nat → Nat → List Nat
  | 0, _ => []
  | fuel + 1, n => if n = 0 then [] else natDigitsAux fuel (n / 10) ++ [48 + n % 10]

/-- ASCII decimal representation of a natural number, as produced by Rust
`usize`/`i64` `to_string` for nonnegative values. -/
def digitsBytes (n : Nat) : List Nat :=
  if n = 0 then [48] else natDigitsAux (n + 1) n

/-- The value of a run of ASCII digit bytes, as `str::parse` computes it. -/
def digitsVal (l : List Nat) : Nat :=
  l.foldl (fun a b => a * 10 + (b - 48)) 0

/-- Whether a byte is an ASCII decimal digit. -/
def isDigitByte (b : Nat) : Bool :=
  48 ≤ b && b ≤ 57

/-- Result of `s.parse::<usize>().unwrap_or(0)` on a byte string (the
reachable values fit in `usize`, so `Nat` models it exactly). -/
def parseUsize (l : List Nat) : Nat :=
  if l ≠ [] && l.all isDigitByte then digitsVal l else 0

/-- ASCII-lowercase a byte, as `u8::to_ascii_lowercase`. -/
def toLowerByte (b : Nat) : Nat :=
  if 65 ≤ b && b ≤ 90 then b + 32 else b

/-- Rust `u8::is_ascii_whitespace`: space, tab, newline, form feed, CR. -/
def isWsByte (b : Nat) : Bool :=
  b = 32 || b = 9 || b = 10 || b = 12 || b = 13

/-- Trim ASCII whitespace from both ends of a byte slice
(`trim_ascii_bytes` in `shell.rs`). -/
def trimWsBytes (l : List Nat) : List Nat :=
  ((l.dropWhile isWsByte).reverse.dropWhile isWsByte).reverse

/-!  Callback registry (`callbacks.rs`).  The per-call random alphanumeric
strings are threaded in as explicit arguments; the per-registry common
prefix `mash-XXXXX:` is a field.  The `HashMap<Vec<u8>, CallbackEntry>` is
a function with `Option` default. -/

/-- Action attached to a callback trigger (`CallbackAction`). -/
inductive CbAction where
  | seenPrompt : CbAction
  | rename (newName : List Nat) : CbAction
  | noAction : CbAction
deriving DecidableEq, Repr

/-- A registered callback (`CallbackEntry`); `rep` is the `repeat` field. -/
structure CbEntry where
  action : CbAction
  rep : Bool

/-- The callback registry (`CallbackRegistry`). -/
structure CbRegistry where
  commonPfx : List Nat
  entries : List Nat → Option CbEntry
  nrGenerated : Nat

/-- Register a callback and return the two halves of the trigger plus the
updated registry (`CallbackRegistry::add`); `rand5` stands for the random
five-character string generated for this call. -/
def cbAdd (reg : CbRegistry) (name : List Nat) (action : CbAction) (rep : Bool)
    (rand5 : List Nat) : List Nat × List Nat × CbRegistry :=
  let nameSafe := name.map (fun b => if b = 47 then 95 else b)
  let nr := reg.nrGenerated
  let trigger := reg.commonPfx ++ nameSafe ++ [58] ++ rand5 ++ [58] ++ digitsBytes nr ++ [47]
  let reg' : CbRegistry :=
    { reg with
      entries := fun k => if k = trigger then some ⟨action, rep⟩ else reg.entries k
      nrGenerated := nr + 1 }
  let split := reg.commonPfx.length / 2
  (trigger.take split, trigger.drop split, reg')

/-- Fast check for the common prefix anywhere in the data
(`CallbackRegistry::any_in`). -/
def cbAnyIn (reg : CbRegistry) (data : List Nat) : Bool :=
  containsBytes reg.commonPfx data

/-- Process one line looking for a registered trigger
(`CallbackRegistry::process`); returns the action (if any) and the
registry after a possible one-shot removal. -/
def cbProcess (reg : CbRegistry) (line : List Nat) : Option CbAction × CbRegistry :=
  match firstSubstrIdx reg.commonPfx line with
  | none => (none, reg)
  | some start =>
    match (line.drop start).findIdx? (fun b => b = 47) with
    | none => (none, reg)
    | some rel =>
      let endPos := start + rel + 1
      let trigger := (line.drop start).take (rel + 1)
      let remainder := line.drop endPos
      match reg.entries trigger with
      | none => (none, reg)
      | some entry =>
        let action :=
          match entry.action with
          | CbAction.rename _ =>
            CbAction.rename (remainder.filter (fun b => !(b = 10 || b = 32)))
          | a => a
        let reg' :=
          if entry.rep then reg
          else { reg with entries := fun k => if k = trigger then none else reg.entries k }
        (some action, reg')

/-!  Display-name registry (`display_names.rs`).  Names are byte strings.
`prefixes : HashMap<String, Vec<bool>>` is a function with default `[]`
(the empty slot vector models an absent key; the source never stores an
empty vector, since `release_prefix_index` removes emptied keys).
`nr_enabled_by_length` is an association list. -/

/-- The display-name registry (`DisplayNameRegistry`); `maxLen` is the
`max_display_name_length` field and `lengths` is `nr_enabled_by_length`. -/
structure NameRegistry where
  slots : List Nat → List Bool
  lengths : List (Nat × Nat)
  maxLen : Nat

/-- The initial registry (`DisplayNameRegistry::new`). -/
def emptyNameRegistry : NameRegistry :=
  { slots := fun _ => [], lengths := [], maxLen := 0 }

/-- Index of the first `false` slot, or the length when all are in use;
this is the scan in `acquire_prefix_index`. -/
def firstFreeIdx : List Bool → Nat
  | [] => 0
  | b :: t => if b then firstFreeIdx t + 1 else 0

/-- Point update of the prefix table. -/
def updateSlots (f : List Nat → List Bool) (p : List Nat) (v : List Bool) :
    List Nat → List Bool :=
  fun q => if q = p then v else f q

/-- Mark the first free slot of `p` in use and return its index
(`acquire_prefix_index`). -/
def acquireIdx (reg : NameRegistry) (p : List Nat) : Nat × NameRegistry :=
  let s := reg.slots p
  let i := firstFreeIdx s
  let s' := if i < s.length then s.set i true else s ++ [true]
  (i, { reg with slots := updateSlots reg.slots p s' })

/-- Remove trailing `false` slots (`while let Some(false) = slots.last()`). -/
def popTrailing : List Bool → List Bool
  | [] => []
  | b :: t =>
    match popTrailing t with
    | [] => if b then [b] else []
    | t' => b :: t'

/-- Split a display name at its first `#` into prefix and slot index
(`display_name.split_once('#')` plus `parse::<usize>().unwrap_or(0)`). -/
def parseDisplayName (name : List Nat) : List Nat × Nat :=
  match firstSubstrIdx [35] name with
  | some i => (name.take i, parseUsize (name.drop (i + 1)))
  | none => (name, 0)

/-- Free the slot encoded in a display name (`release_prefix_index`). -/
def releaseIdx (reg : NameRegistry) (name : List Nat) : NameRegistry :=
  let pi := parseDisplayName name
  let p := pi.1
  let suffix := pi.2
  let s := reg.slots p
  if s = [] then reg
  else if suffix < s.length - 1 then
    { reg with slots := updateSlots reg.slots p (s.set suffix false) }
  else
    let s1 := if suffix < s.length then s.eraseIdx suffix else s
    { reg with slots := updateSlots reg.slots p (popTrailing s1) }

/-- Label for a prefix and slot index: `P` for slot 0, `P#N` for `N ≥ 1`
(`make_unique_name`). -/
def mkDisplayName (p : List Nat) (i : Nat) : List Nat :=
  if i = 0 then p else p ++ [35] ++ digitsBytes i

/-- Increment the count for a length key, inserting it at 1 when absent
(`*self.nr_enabled_by_length.entry(length).or_insert(0) += 1`). -/
def bumpLen (k : Nat) : List (Nat × Nat) → List (Nat × Nat)
  | [] => [(k, 1)]
  | (k', v) :: t => if k' = k then (k', v + 1) :: t else (k', v) :: bumpLen k t

/-- Saturating-decrement the count for a length key, removing it at 0
(the `else` branch of `set_enabled`; `or_insert(0)` followed by
`saturating_sub(1)` and removal nets to a no-op for an absent key). -/
def dropLen (k : Nat) : List (Nat × Nat) → List (Nat × Nat)
  | [] => []
  | (k', v) :: t =>
    if k' = k then (if v - 1 = 0 then t else (k', v - 1) :: t)
    else (k', v) :: dropLen k t

/-- Maximum over the keys of the length table, 0 when empty
(`update_max_length`). -/
def maxKey (l : List (Nat × Nat)) : Nat :=
  l.foldr (fun kv m => max kv.1 m) 0

/-- Record a name becoming enabled or disabled and refresh the cached
maximum (`DisplayNameRegistry::set_enabled`). -/
def setEnabledFn (reg : NameRegistry) (name : List Nat) (enabled : Bool) : NameRegistry :=
  let lengths' := if enabled then bumpLen name.length reg.lengths else dropLen name.length reg.lengths
  { reg with lengths := lengths', maxLen := maxKey lengths' }

/-- Allocate, rename or release a display name
(`DisplayNameRegistry::change`); `none` models the panic on a requested
prefix containing `#`, including the unreachable `change(None, None)`
unwrap. -/
def changeName (reg : NameRegistry) (prev : Option (List Nat))
    (newPfx : Option (List Nat)) : Option (Option (List Nat) × NameRegistry) :=
  if (newPfx.getD []).contains 35 && newPfx.isSome then none
  else
    let reg1 :=
      match prev with
      | some pv => releaseIdx (if newPfx.isSome then setEnabledFn reg pv false else reg) pv
      | none => reg
    match newPfx with
    | none =>
      match prev with
      | some _ => some (none, reg1)
      | none => none
    | some np =>
      let ir := acquireIdx reg1 np
      let nm := mkDisplayName np ir.1
      some (some nm, setEnabledFn ir.2 nm true)

/-- An operation on the display-name registry. -/
inductive NameOp where
  | change (prev newPfx : Option (List Nat)) : NameOp
  | setEnabled (name : List Nat) (enabled : Bool) : NameOp

/-- Registry together with the ghost bookkeeping the specification talks
about: `live` are the names allocated and not yet released, in allocation
order; `enabledNames` are the names currently marked enabled (one
occurrence per enable not yet matched by a disable). -/
structure NameTrace where
  reg : NameRegistry
  live : List (List Nat)
  enabledNames : List (List Nat)

/-- The initial trace. -/
def initNameTrace : NameTrace :=
  { reg := emptyNameRegistry, live := [], enabledNames := [] }

/-- Apply one registry operation, updating the ghost state accordingly;
`none` propagates the panic of `change`. -/
def applyNameOp (t : NameTrace) : NameOp → Option NameTrace
  | NameOp.change prev newPfx =>
    (changeName t.reg prev newPfx).map (fun rr =>
      let liveReleased := match prev with
        | some p => t.live.erase p
        | none => t.live
      let enabledReleased :=
        match prev, newPfx with
        | some p, some _ => t.enabledNames.erase p
        | _, _ => t.enabledNames
      match rr.1 with
      | some nm =>
        { reg := rr.2, live := liveReleased ++ [nm], enabledNames := enabledReleased ++ [nm] }
      | none =>
        { reg := rr.2, live := liveReleased, enabledNames := enabledReleased })
  | NameOp.setEnabled name enabled =>
    some
      { reg := setEnabledFn t.reg name enabled
        live := t.live
        enabledNames :=
          if enabled then t.enabledNames ++ [name] else t.enabledNames.erase name }

/-- Run a sequence of registry operations. -/
def runNameOps (t : NameTrace) : List NameOp → Option NameTrace
  | [] => some t
  | op :: ops =>
    match applyNameOp t op with
    | some t' => runNameOps t' ops
    | none => none

/-- Allocation discipline: every `change` that releases a previous name
releases a currently live one (as the event loop does — it only passes
names it obtained from the registry and has not yet released). -/
def wfAlloc (t : NameTrace) : List NameOp → Bool
  | [] => true
  | op :: ops =>
    (match op with
     | NameOp.change (some p) _ => t.live.contains p
     | _ => true) &&
    (match applyNameOp t op with
     | some t' => wfAlloc t' ops
     | none => false)

/-- Toggle discipline: a name is only disabled while currently marked
enabled, including the implicit disable that a renaming `change` performs
on the previous name (as the event loop does). -/
def wfToggle (t : NameTrace) : List NameOp → Bool
  | [] => true
  | op :: ops =>
    (match op with
     | NameOp.setEnabled n b => b || t.enabledNames.contains n
     | NameOp.change prev newPfx =>
       match prev, newPfx with
       | some p, some _ => t.enabledNames.contains p
       | _, _ => true) &&
    (match applyNameOp t op with
     | some t' => wfToggle t' ops
     | none => false)

/-!  Host-syntax expander (`host_syntax.rs`).  Inputs are character lists.
The two regexes are modelled directly: `SYNTAX_RE = <([0-9,\-]+)>` finds
the leftmost `<`, followed by a maximal nonempty run of characters from
`[0-9,\-]` (none of which can be `<` or `>`), followed by `>`;
`INTERVAL_RE = ^([0-9]+)(-[0-9]+)?$` is an anchored full match. -/

/-- Characters allowed inside a `<…>` region by `SYNTAX_RE`. -/
def isRangeChar (c : Char) : Bool :=
  c.isDigit || c = ',' || c = '-'

/-- Leftmost `SYNTAX_RE` match: returns the text before the region, the
region body, and the text after it. -/
def findRegion : List Char → Option (List Char × List Char × List Char)
  | [] => none
  | c :: rest =>
    let tailResult := (findRegion rest).map (fun pis => (c :: pis.1, pis.2.1, pis.2.2))
    if c = '<' then
      match rest.span isRangeChar with
      | (run, after) =>
        match after, run with
        | '>' :: suf, _ :: _ => some ([], run, suf)
        | _, _ => tailResult
    else tailResult

/-- Anchored `INTERVAL_RE` match on one comma-separated item: returns the
start digits and the end digits (the start again when no `-M` part). -/
def parseItem (item : List Char) : Option (List Char × List Char) :=
  match item.span Char.isDigit with
  | (ds1, rest) =>
    if ds1 = [] then none
    else
      match rest with
      | [] => some (ds1, ds1)
      | '-' :: rest2 =>
        match rest2.span Char.isDigit with
        | (ds2, rest3) => if ds2 ≠ [] && rest3 = [] then some (ds1, ds2) else none
      | _ => none

/-- Numeric value of a digit string as `str::parse::<i64>().unwrap_or(0)`
computes it: the value when it fits in an `i64`, otherwise 0. -/
def rangeVal (ds : List Char) : Nat :=
  let v := ds.foldl (fun a c => a * 10 + (c.toNat - 48)) 0
  if v ≤ 9223372036854775807 then v else 0

/-- Decimal digits of `n` as characters (Rust `i64::to_string` for the
nonnegative values produced here). -/
def natChars (n : Nat) : List Char :=
  (digitsBytes n).map Char.ofNat

/-- Format one number as `iter_numbers` does: zero-padded to `width` when
`zeroPad` is set (`format!("{:0>width$}", i)`), plain decimal otherwise. -/
def fmtRangeNum (zeroPad : Bool) (width : Nat) (i : Nat) : List Char :=
  let ds := natChars i
  if zeroPad then List.replicate (width - ds.length) '0' ++ ds else ds

/-- The loop body of `iter_numbers`: push the formatted current value,
stop after the end value, else step by one towards it.  `asc` is the sign
of `increment`; the fuel is instantiated with the exact trip count. -/
def iterNumbersLoop (e : Nat) (asc : Bool) (zeroPad : Bool) (width : Nat) :
    Nat → Nat → List (List Char)
  | 0, _ => []
  | fuel + 1, i =>
    fmtRangeNum zeroPad width i ::
      (if i = e then [] else iterNumbersLoop e asc zeroPad width fuel (if asc then i + 1 else i - 1))

/-- Expand one `N`/`N-M` item into the inclusive range of formatted
numbers (`iter_numbers`). -/
def iterNumbers (start stop : List Char) : List (List Char) :=
  let s := rangeVal start
  let e := rangeVal stop
  let zeroPad := (start.length > 1 && start.headD '0' = '0') ||
    (stop.length > 1 && stop.headD '0' = '0')
  let width := max start.length stop.length
  let fuel := (if s ≤ e then e - s else s - e) + 1
  iterNumbersLoop e (s ≤ e) zeroPad width fuel s

/-- Number of `<` characters, the decreasing measure of the recursion in
`expand_syntax`. -/
def countLt (l : List Char) : Nat :=
  (l.filter (fun c => c = '<')).length

/-- Fueled body of `expand_syntax`: expand the leftmost region item by
item, substituting each produced number and re-expanding recursively. -/
def expandHostsF : Nat → List Char → List (List Char)
  | 0, s => [s]
  | fuel + 1, s =>
    match findRegion s with
    | none => [s]
    | some (pre, inner, suf) =>
      (inner.splitOn ',').foldl
        (fun acc item =>
          match parseItem item with
          | none => acc
          | some se =>
            (iterNumbers se.1 se.2).foldl
              (fun acc2 num => acc2 ++ expandHostsF fuel (pre ++ num ++ suf)) acc)
        []

/-- Expand host-range syntax (`expand_syntax`); one unit of fuel per `<`
is sufficient, as each expansion step removes exactly one `<`. -/
def expandHosts (s : List Char) : List (List Char) :=
  expandHostsF (countLt s + 1) s

/-!  Remote shell (`shell.rs`).  `pid`, `master_fd` and `color_style` are
omitted: the first two are OS resources (killing and winsize are
side effects outside the model) and a `None` color style makes the console
prefix equal the log prefix, which is what the model emits.  PTY writes
and console outputs are returned as transcripts.  The random strings that
`CallbackRegistry::add` consumes are drawn from `randSupply`. -/

/-- Shell lifecycle state (`ShellState`). -/
inductive ShellSt where
  | notStarted : ShellSt
  | idle : ShellSt
  | running : ShellSt
  | terminated : ShellSt
  | dead : ShellSt
deriving DecidableEq, Repr

/-- State name bytes (`ShellState::name`). -/
def stNameBytes : ShellSt → List Nat
  | ShellSt.notStarted => bytesOf "not_started"
  | ShellSt.idle => bytesOf "idle"
  | ShellSt.running => bytesOf "running"
  | ShellSt.terminated => bytesOf "terminated"
  | ShellSt.dead => bytesOf "dead"

/-- A remote shell (`RemoteShell`). -/
structure Shell where
  id : Nat
  hostname : List Char
  port : List Char
  displayName : List Char
  enabled : Bool
  state : ShellSt
  debug : Bool
  readBuffer : List Nat
  writeBuffer : List Nat
  lastPrintedLine : List Nat
  readInStateNotStarted : List Nat
  initString : List Nat
  initStringSent : Bool
  command : Option (List Nat)
  password : Option (List Nat)
  callbacks : CbRegistry
  randSupply : List (List Nat)

/-- Display name as bytes (ASCII assumption, see `bytesOf`). -/
def nameBytes (sh : Shell) : List Nat :=
  sh.displayName.map Char.toNat

/-- Collapse output: split on newlines, drop whitespace-only lines, trim
empty edge entries, rejoin (`strip_newlines`). -/
def stripNewlines (data : List Nat) : List Nat :=
  let lines := (data.splitOn 10).filter (fun l => !(l.all isWsByte))
  let lines := (lines.dropWhile List.isEmpty).reverse.dropWhile List.isEmpty
  List.intercalate [10] lines.reverse

/-- Replace each newline of the payload by a newline plus a fresh prefix,
as the byte loop of `print_lines` does. -/
def expandNlWith (pfx : List Nat) : List Nat → List Nat
  | [] => []
  | b :: t =>
    if b = 10 then 10 :: (pfx ++ expandNlWith pfx t) else b :: expandNlWith pfx t

/-- Print a batch of lines with the aligned display-name prefix
(`RemoteShell::print_lines`); returns the shell with the updated
`last_printed_line` and the console transcript.  With no color style the
console data equals the log data. -/
def printLines (sh : Shell) (lines : List Nat) (maxNameLen : Nat) :
    Shell × List (List Nat) :=
  let cleaned := stripNewlines lines
  if cleaned = [] then (sh, [])
  else
    let indent := maxNameLen - (nameBytes sh).length
    let pfx := nameBytes sh ++ List.replicate indent 32 ++ bytesOf " : "
    let data := pfx ++ expandNlWith pfx cleaned ++ [10]
    let lastLine :=
      match rfindNl cleaned with
      | some pos => cleaned.drop (pos + 1)
      | none => cleaned
    ({ sh with lastPrintedLine := lastLine }, [data])

/-- Debug message bytes (`RemoteShell::print_debug`). -/
def dbgMsg (sh : Shell) (msg : List Nat) : List Nat :=
  bytesOf "[dbg] " ++ nameBytes sh ++ [91] ++ stNameBytes sh.state ++ bytesOf "]: " ++ msg ++ [10]

/-- Transition the state machine (`RemoteShell::change_state`);
`withConsole` records whether a console was passed for debug output. -/
def changeState (sh : Shell) (newSt : ShellSt) (withConsole : Bool) :
    Shell × List (List Nat) :=
  if newSt = sh.state then (sh, [])
  else
    let out :=
      if sh.debug && withConsole then
        [dbgMsg sh (bytesOf "state => " ++ stNameBytes newSt)]
      else []
    let sh1 :=
      if sh.state = ShellSt.notStarted then { sh with readInStateNotStarted := [] } else sh
    ({ sh1 with state := newSt }, out)

/-- Write to the PTY when live and enabled (`RemoteShell::dispatch_write`);
returns whether the write happened and the write transcript. -/
def dispatchWrite (sh : Shell) (buf : List Nat) : Bool × List (List Nat) :=
  if sh.state ≠ ShellSt.dead ∧ sh.enabled then (true, [buf]) else (false, [])

/-- Forward a command line, moving Idle to Running
(`RemoteShell::dispatch_command`). -/
def dispatchCommand (sh : Shell) (cmd : List Nat) : Shell × List (List Nat) :=
  let wr := dispatchWrite sh cmd
  if wr.1 ∧ sh.state = ShellSt.idle then
    ((changeState sh ShellSt.running false).1, wr.2)
  else (sh, wr.2)

/-- Tear a shell down (`RemoteShell::disconnect`): clear the buffers,
disable, flush any NotStarted buffer, go Dead.  The `SIGKILL` to the
process group is an OS effect outside the model. -/
def disconnectFn (sh : Shell) (maxNameLen : Nat) : Shell × List (List Nat) :=
  let sh1 := { sh with readBuffer := [], writeBuffer := [], enabled := false }
  let flushed :=
    if sh1.readInStateNotStarted ≠ [] then
      printLines { sh1 with readInStateNotStarted := [] } sh1.readInStateNotStarted maxNameLen
    else (sh1, [])
  let final := changeState flushed.1 ShellSt.dead true
  (final.1, flushed.2 ++ final.2)

/-- The fast path of `handle_data`: in Running with no trigger marker in
the buffer, flush everything up to the last newline. -/
def tryFastPath (sh : Shell) (maxNameLen : Nat) : Option (Shell × List (List Nat)) :=
  if sh.state = ShellSt.running && !(cbAnyIn sh.callbacks sh.readBuffer) then
    match rfindNl sh.readBuffer with
    | some lastNl =>
      let toPrint := sh.readBuffer.take lastNl
      some (printLines { sh with readBuffer := sh.readBuffer.drop (lastNl + 1) } toPrint maxNameLen)
    | none => none
  else none

/-- Result of `handle_data` and of its line loop: the shell, the PTY write
transcript, the console transcript, and the pending rename. -/
structure HdRes where
  shell : Shell
  writes : List (List Nat)
  console : List (List Nat)
  pending : Option (List Nat)

/-- Outcome of processing one popped line in the `handle_data` loop:
either return from `handle_data` or continue the loop. -/
inductive StepRes where
  | ret (sh : Shell) (writes console : List (List Nat)) (pending : Option (List Nat)) : StepRes
  | cont (sh : Shell) (writes console : List (List Nat)) (pending : Option (List Nat)) : StepRes

/-- Process one line (the body of the `while let Some(lf_pos)` loop of
`handle_data`, before the in-loop fast-path retry); the buffer has already
been advanced past the line. -/
def loopBody (sh : Shell) (line : List Nat) (maxNameLen : Nat) (interactive : Bool)
    (pending : Option (List Nat)) : StepRes :=
  let pr := cbProcess sh.callbacks line
  let sh := { sh with callbacks := pr.2 }
  match pr.1 with
  | some CbAction.seenPrompt =>
    if interactive then
      let cs := changeState sh ShellSt.idle true
      StepRes.cont cs.1 [] cs.2 pending
    else
      match sh.command with
      | some cmd =>
        let shc := { sh with command := none }
        let r5 := shc.randSupply.headD []
        let shc := { shc with randSupply := shc.randSupply.tail }
        let ad := cbAdd shc.callbacks (bytesOf "real prompt ends") CbAction.noAction true r5
        let shc := { shc with callbacks := ad.2.2 }
        let ps1 := bytesOf "PS1=\"" ++ ad.1 ++ bytesOf "\"\"" ++ ad.2.1 ++ bytesOf "\n\"\n"
        StepRes.cont shc [ps1, cmd, bytesOf "exit 2>/dev/null\n"] [] pending
      | none => StepRes.cont sh [] [] pending
  | some (CbAction.rename nm) =>
    let pending' := some (if nm ≠ [] then nm else sh.hostname.map Char.toNat)
    StepRes.cont sh [] [] pending'
  | some CbAction.noAction => StepRes.cont sh [] [] pending
  | none =>
    if sh.state = ShellSt.idle ∨ sh.state = ShellSt.running then
      let pl := printLines sh line maxNameLen
      StepRes.cont pl.1 [] pl.2 pending
    else if sh.state = ShellSt.notStarted then
      let shN := { sh with readInStateNotStarted := sh.readInStateNotStarted ++ line }
      if containsBytes (bytesOf "The authenticity of host ") line then
        let msg := trimWsBytes line ++
          bytesOf " Closing connection. Consider manually connecting or using ssh-keyscan."
        let pl := printLines shN msg maxNameLen
        let dc := disconnectFn pl.1 maxNameLen
        StepRes.ret dc.1 [] (pl.2 ++ dc.2) pending
      else if containsBytes (bytesOf "REMOTE HOST IDENTIFICATION HAS CHANG") line then
        let pl := printLines shN
          (bytesOf "Remote host identification has changed. Consider manually connecting or using ssh-keyscan.")
          maxNameLen
        StepRes.cont pl.1 [] pl.2 pending
      else StepRes.cont shN [] [] pending
    else StepRes.cont sh [] [] pending

/-- After the loop: send the init string on first NotStarted data
(`handle_data`, final block). -/
def finishInit (sh : Shell) (pending : Option (List Nat)) : HdRes :=
  if sh.state = ShellSt.notStarted && !sh.initStringSent then
    ⟨{ sh with initStringSent := true }, [sh.initString], [], pending⟩
  else ⟨sh, [], [], pending⟩

/-- The line loop of `handle_data`: pop `\n`-terminated lines one at a
time, process each, and retry the fast path after every line.  One unit of
fuel per buffered byte is sufficient, since each iteration consumes at
least the line's newline byte. -/
def handleLoop (maxNameLen : Nat) (interactive : Bool) :
    Nat → Shell → Option (List Nat) → HdRes
  | 0, sh, pending => finishInit sh pending
  | fuel + 1, sh, pending =>
    match splitFirstLine sh.readBuffer with
    | none => finishInit sh pending
    | some lr =>
      match loopBody { sh with readBuffer := lr.2 } lr.1 maxNameLen interactive pending with
      | StepRes.ret s w c p => ⟨s, w, c, p⟩
      | StepRes.cont s w c p =>
        match tryFastPath s maxNameLen with
        | some so => ⟨so.1, w, c ++ so.2, p⟩
        | none =>
          let r := handleLoop maxNameLen interactive fuel s p
          ⟨r.shell, w ++ r.writes, c ++ r.console, r.pending⟩

/-- Whether the NotStarted password auto-reply fires: a password is
configured and the lowercased accumulated buffer contains `password:`. -/
def passwordPromptSeen (sh : Shell) : Bool :=
  sh.state = ShellSt.notStarted && sh.password.isSome &&
    containsBytes (bytesOf "password:") (sh.readBuffer.map toLowerByte)

/-- Process incoming PTY data (`RemoteShell::handle_data`). -/
def handleData (sh : Shell) (newData : List Nat) (maxNameLen : Nat)
    (interactive : Bool) : HdRes :=
  if sh.state = ShellSt.dead then ⟨sh, [], [], none⟩
  else
    let dbgOut := if sh.debug then [dbgMsg sh (bytesOf "==> " ++ newData)] else []
    let sh1 := { sh with readBuffer := sh.readBuffer ++ newData }
    match tryFastPath sh1 maxNameLen with
    | some so => ⟨so.1, [], dbgOut ++ so.2, none⟩
    | none =>
      if passwordPromptSeen sh1 then
        ⟨{ sh1 with readBuffer := [] }, [sh1.password.getD [] ++ [10]], dbgOut, none⟩
      else
        let r := handleLoop maxNameLen interactive sh1.readBuffer.length sh1 none
        ⟨r.shell, r.writes, dbgOut ++ r.console, r.pending⟩

/-- Flush a Running shell's partial line before showing the prompt
(`RemoteShell::print_unfinished_line`). -/
def printUnfinished (sh : Shell) (maxNameLen : Nat) : Shell × List (List Nat) :=
  if sh.state = ShellSt.running ∧ sh.readBuffer ≠ [] then
    let buf := sh.readBuffer
    let sh1 := { sh with readBuffer := [] }
    let pr := cbProcess sh1.callbacks buf
    let sh2 := { sh1 with callbacks := pr.2 }
    match pr.1 with
    | none => printLines sh2 buf maxNameLen
    | some _ => (sh2, [])
  else (sh, [])

/-!  Shell manager and control commands (`shell_manager.rs`,
`control_commands.rs`).  The manager is the list of shells in `ShellId`
order (the `BTreeMap` values).  The `glob` crate is an external
collaborator; its `Pattern` is modelled for literals, `?` and `*`
(character classes are not modelled: a bracket makes `Pattern::new` fall
back to the `Err` literal-comparison branch here, which no embedded input
exercises). -/

/-- ASCII subset of `char::is_whitespace`, used by `split_whitespace` and
`str::trim`. -/
def isWsChar (c : Char) : Bool :=
  c = ' ' || c = '\t' || c = '\n' || c = '\r' || c = '\x0b' || c = '\x0c'

/-- Fueled body of `split_whitespace`. -/
def splitWsF : Nat → List Char → List (List Char)
  | 0, _ => []
  | fuel + 1, l =>
    match l.dropWhile isWsChar with
    | [] => []
    | c :: t =>
      let sp := (c :: t).span (fun d => !isWsChar d)
      sp.1 :: splitWsF fuel sp.2

/-- Split on whitespace, dropping empty tokens (`str::split_whitespace`). -/
def splitWsChars (l : List Char) : List (List Char) :=
  splitWsF (l.length + 1) l

/-- Trim whitespace from both ends (`str::trim`). -/
def trimWsChars (l : List Char) : List Char :=
  ((l.dropWhile isWsChar).reverse.dropWhile isWsChar).reverse

/-- One token of a compiled glob pattern. -/
inductive GlobTok where
  | lit (c : Char) : GlobTok
  | one : GlobTok
  | many : GlobTok

/-- Compile a glob pattern (`glob::Pattern::new`): `?` matches one
character, `*` any sequence; brackets are not modelled and yield the
error fallback. -/
def globParse : List Char → Option (List GlobTok)
  | [] => some []
  | c :: t =>
    if c = '[' || c = ']' then none
    else
      (globParse t).map fun ts =>
        (if c = '*' then GlobTok.many else if c = '?' then GlobTok.one else GlobTok.lit c) :: ts

/-- Fueled glob matcher (`glob::Pattern::matches` with default options). -/
def globMatchF : Nat → List GlobTok → List Char → Bool
  | 0, _, _ => false
  | _ + 1, [], [] => true
  | _ + 1, [], _ :: _ => false
  | fuel + 1, GlobTok.many :: ps, s =>
    globMatchF fuel ps s ||
      (match s with
       | [] => false
       | _ :: t => globMatchF fuel (GlobTok.many :: ps) t)
  | _ + 1, GlobTok.one :: _, [] => false
  | fuel + 1, GlobTok.one :: ps, _ :: t => globMatchF fuel ps t
  | _ + 1, GlobTok.lit _ :: _, [] => false
  | fuel + 1, GlobTok.lit c :: ps, d :: t => c = d && globMatchF fuel ps t

/-- Glob match; the fuel bound is one more than the sum of lengths, which
every step decreases. -/
def globMatch (ps : List GlobTok) (s : List Char) : Bool :=
  globMatchF (ps.length + s.length + 1) ps s

/-- Bytes decoded as characters (`String::from_utf8_lossy`, faithful on
ASCII data). -/
def lossyChars (bs : List Nat) : List Char :=
  bs.map Char.ofNat

/-- A placeholder shell for total list indexing. -/
def defaultShell : Shell :=
  { id := 0, hostname := [], port := [], displayName := [], enabled := false
    state := ShellSt.dead, debug := false, readBuffer := [], writeBuffer := []
    lastPrintedLine := [], readInStateNotStarted := [], initString := []
    initStringSent := false, command := none, password := none
    callbacks := { commonPfx := [], entries := fun _ => none, nrGenerated := 0 }
    randSupply := [] }

instance : Inhabited Shell := ⟨defaultShell⟩

/-- Lexicographic (byte-wise) order on display names, as `String::cmp`. -/
def nameLtChars : List Char → List Char → Bool
  | [], [] => false
  | [], _ :: _ => true
  | _ :: _, [] => false
  | x :: xs, y :: ys => if x = y then nameLtChars xs ys else decide (x < y)

/-- Stable insertion used by the display-name sort. -/
def insSorted (x : Shell) : List Shell → List Shell
  | [] => [x]
  | y :: ys =>
    if nameLtChars y.displayName x.displayName then y :: insSorted x ys
    else x :: y :: ys

/-- All shells sorted by display name, stably
(`ShellManager::all_shells`). -/
def sortShells (l : List Shell) : List Shell :=
  l.foldr insSorted []

/-- Apply an update to the shell with the given id
(`ShellManager::get_shell_mut`). -/
def updateShellById (shells : List Shell) (i : Nat) (f : Shell → Shell) : List Shell :=
  shells.map fun s => if s.id = i then f s else s

/-- Whether one pattern matches one shell: glob on the display name or on
the last printed line, with literal comparison when the pattern failed to
compile (`selected_shells_indices`, inner match). -/
def patternMatches (ep : List Char) (sh : Shell) : Bool :=
  match globParse ep with
  | some p => globMatch p sh.displayName || globMatch p (lossyChars sh.lastPrintedLine)
  | none => sh.displayName = ep || lossyChars sh.lastPrintedLine = ep

/-- Indices (into the name-sorted shell list) selected by a pattern
command (`selected_shells_indices`); empty or `*` selects all.  The
per-token `not found` console message is not modelled. -/
def selectedIndices (command : List Char) (shells : List Shell) : List Nat :=
  let sorted := sortShells shells
  if command = [] ∨ command = ['*'] then List.range sorted.length
  else
    (splitWsChars command).foldl
      (fun acc tok =>
        (expandHosts tok).foldl
          (fun acc2 ep =>
            (List.range sorted.length).foldl
              (fun a idx =>
                if a.contains idx then a
                else if patternMatches ep (sorted.getD idx defaultShell) then a ++ [idx]
                else a)
              acc2)
          acc)
      []

/-- Enable or disable the selected shells (`toggle_shells`): when the user
named a selection that is already fully in the requested state (ignoring
Dead), the fallback branch runs over every shell instead. -/
def toggleShells (command : List Char) (enable : Bool) (shells : List Shell)
    (reg : NameRegistry) (interactive : Bool) : List Shell × NameRegistry :=
  let sorted := sortShells shells
  let indices := selectedIndices command shells
  let allSame := indices.all fun i =>
    (sorted.getD i defaultShell).state = ShellSt.dead ||
      (sorted.getD i defaultShell).enabled = enable
  if command ≠ [] ∧ command ≠ ['*'] ∧ indices ≠ [] ∧ allSame then
    (List.range sorted.length).foldl
      (fun acc i =>
        let sortedNow := sortShells acc.1
        let sh := sortedNow.getD i defaultShell
        if sh.state ≠ ShellSt.dead then
          let reg' :=
            if sh.enabled = enable ∧ interactive then
              setEnabledFn acc.2 (sh.displayName.map Char.toNat) (!enable)
            else acc.2
          (updateShellById acc.1 sh.id (fun s => { s with enabled := !enable }), reg')
        else acc)
      (shells, reg)
  else
    indices.foldl
      (fun acc i =>
        let sortedNow := sortShells acc.1
        let sh := sortedNow.getD i defaultShell
        if sh.state ≠ ShellSt.dead then
          let reg' :=
            if sh.enabled ≠ enable ∧ interactive then
              setEnabledFn acc.2 (sh.displayName.map Char.toNat) enable
            else acc.2
          (updateShellById acc.1 sh.id (fun s => { s with enabled := enable }), reg')
        else acc)
      (shells, reg)

/-- The rename control command (`do_rename`): for each enabled shell, a
nonempty name registers a one-shot `Rename` callback and echoes its split
trigger; the empty-name branch of the source is a no-op stub.  Returns the
shells and the PTY write transcript. -/
def doRename (params : List Char) (shells : List Shell) : List Shell × List (List Nat) :=
  let name := (trimWsChars params).map Char.toNat
  (sortShells shells).foldl
    (fun acc sh0 =>
      let sh := (acc.1.find? (fun s => s.id = sh0.id)).getD sh0
      if sh.enabled then
        if name = [] then acc
        else
          let r5 := sh.randSupply.headD []
          let sh1 := { sh with randSupply := sh.randSupply.tail }
          let ad := cbAdd sh1.callbacks (bytesOf "rename") (CbAction.rename []) false r5
          let sh2 := { sh1 with callbacks := ad.2.2 }
          let cmd := bytesOf "/bin/echo \"" ++ ad.1 ++ bytesOf "\"\"" ++ ad.2.1 ++
            bytesOf "\" " ++ name ++ [10]
          let dc := dispatchCommand sh2 cmd
          (updateShellById acc.1 sh0.id (fun _ => dc.1), acc.2 ++ dc.2)
      else acc)
    (shells, [])

/-- UTF-8 byte length of one character (`str::len` counts bytes). -/
def utf8Len (c : Char) : Nat :=
  if c.toNat < 128 then 1 else if c.toNat < 2048 then 2 else if c.toNat < 65536 then 3 else 4

/-- The control-code computation of `do_send_ctrl`,
`letter.to_ascii_lowercase().as_bytes()[0] - b'a' + 1` on a `u8`: `none`
models the unsigned underflow (a panic in a debug build) when the
lowercased byte is below `b'a'`. -/
def sendCtrlCode (b : Nat) : Option Nat :=
  if 97 ≤ toLowerByte b then some (toLowerByte b - 97 + 1) else none

/-- Whether a byte is an ASCII letter. -/
def isAsciiLetter (b : Nat) : Bool :=
  (65 ≤ b && b ≤ 90) || (97 ≤ b && b ≤ 122)

/-- Argument handling of `do_send_ctrl` up to the control-code
computation: reject an empty argument list and a first token that is not
exactly one byte long, then compute the control code from that byte;
returns the code and the remaining pattern tokens. -/
def doSendCtrlParse (params : List Char) :
    Except (List Char) (Option Nat × List (List Char)) :=
  match splitWsChars params with
  | [] => Except.error (charsOf "Expected at least a letter")
  | letter :: rest =>
    if (letter.map utf8Len).sum ≠ 1 then
      Except.error (charsOf "Expected a single letter")
    else
      Except.ok (sendCtrlCode (letter.headD ' ').toNat, rest)

/-- Render one row of `format_info`, tracking the column index `i`:
a space before every column but the first, right-padding to the column
maximum on every column but the last, and a final newline. -/
def renderRow (maxLens : List Nat) (nr : Nat) : Nat → List (List Nat) → List Nat
  | _, [] => [10]
  | i, col :: rest =>
    (if 0 < i then [32] else []) ++ col ++
      (if i < nr - 1 then List.replicate (maxLens.getD i 0 - col.length) 32 else []) ++
      renderRow maxLens nr (i + 1) rest

/-- Per-column maxima of `format_info`, for the columns of the first row. -/
def colMaxLens (infoList : List (List (List Nat))) (nr : Nat) : List Nat :=
  (List.range nr).map fun i =>
    infoList.foldl (fun m row => max m (row.getD i []).length) 0

/-- Tabular rendering (`ShellManager::format_info`); `none` models the
panic of `max_lengths[i]` when some row is wider than the first. -/
def formatInfo (infoList : List (List (List Nat))) : Option (List (List Nat)) :=
  match infoList with
  | [] => some []
  | first :: _ =>
    let nr := first.length
    if infoList.all (fun row => row.length ≤ nr) then
      let maxLens := colMaxLens infoList nr
      some (infoList.map (renderRow maxLens nr 0))
    else none

/-- Byte offset at which column `K` begins in a rendered row: the widths
of the earlier columns plus one separator space per column up to `K`. -/
def colOffset (maxLens : List Nat) (k : Nat) : Nat :=
  ((List.range k).map (fun j => maxLens.getD j 0)).sum + k

/-!  Derived notions used by the theorem statements, plus concrete sample
values for witnesses and counterexamples. -/

/-- The action `process` hands back for a registered action: `Rename`
payloads are recomputed from the text after the trigger, which is empty
when the line is exactly the trigger plus a newline; other actions are
returned as registered. -/
def renameStripped : CbAction → CbAction
  | CbAction.rename _ => CbAction.rename []
  | a => a

/-- Maximum length over a list of names, 0 when empty. -/
def maxLenOf (names : List (List Nat)) : Nat :=
  names.foldr (fun n m => max n.length m) 0

/-- A sample callback registry with a fixed common prefix. -/
def sampleCbRegistry : CbRegistry :=
  { commonPfx := bytesOf "mash-aaaaa:", entries := fun _ => none, nrGenerated := 0 }

/-- A sample shell used by witnesses and counterexamples. -/
def sampleShell (i : Nat) (nm : List Char) (en : Bool) (st : ShellSt) : Shell :=
  { defaultShell with
      id := i
      hostname := charsOf "host"
      displayName := nm
      enabled := en
      state := st
      callbacks := sampleCbRegistry }

/-- A NotStarted shell with a configured password and the init string
already sent. -/
def samplePwShell : Shell :=
  { sampleShell 0 (charsOf "a") true ShellSt.notStarted with
      password := some (bytesOf "pw")
      initStringSent := true }

/-- A dead shell with junk left in a buffer, for the absorbing-state
witness. -/
def sampleDeadShell : Shell :=
  { sampleShell 0 (charsOf "a") true ShellSt.dead with
      readBuffer := bytesOf "junk"
      enabled := false }

/-- The operation sequence of the C5 counterexample: releasing the alias
`h#01` (never returned by the registry) frees the slot of the live name
`h#1`, which is then handed out a second time. -/
def aliasReleaseOps : List NameOp :=
  [NameOp.change none (some (bytesOf "h")),
   NameOp.change none (some (bytesOf "h")),
   NameOp.change (some (bytesOf "h#01")) none,
   NameOp.change none (some (bytesOf "h"))]

/-- The operation sequence of the C6 counterexample: disabling a name
that was never enabled steals the length count of an unrelated enabled
name. -/
def staleDisableOps : List NameOp :=
  [NameOp.setEnabled (bytesOf "aaaa") true,
   NameOp.setEnabled (bytesOf "bbbb") false]

/-- Whether slot `i` of prefix `p` is in use. -/
def slotAt (f : List Nat → List Bool) (p : List Nat) (i : Nat) : Bool :=
  (f p).getD i false

/-- Invariant tying the ghost live-name list to the slot table: live names
are distinct, and each is the canonical label of an in-use slot of a
`#`-free prefix. -/
def LiveInv (t : NameTrace) : Prop :=
  t.live.Pairwise (fun a b => a ≠ b) ∧
  ∀ nm ∈ t.live, ∃ p i, ¬ 35 ∈ p ∧ nm = mkDisplayName p i ∧ slotAt t.reg.slots p i = true

/-- Number of names of length `L` in a list of names. -/
def countLen (names : List (List Nat)) (L : Nat) : Nat :=
  (names.filter (fun n => n.length = L)).length

/-- Invariant tying the length table to the ghost enabled-name list: the
cached maximum is the maximum key, keys are distinct, every entry counts
the enabled names of its length (and is positive), and every length
represented among the enabled names has an entry. -/
def LenInv (reg : NameRegistry) (enabled : List (List Nat)) : Prop :=
  reg.maxLen = maxKey reg.lengths ∧
  (reg.lengths.map Prod.fst).Nodup ∧
  (∀ kv ∈ reg.lengths, kv.2 = countLen enabled kv.1 ∧ 0 < kv.2) ∧
  (∀ L, 0 < countLen enabled L → L ∈ reg.lengths.map Prod.fst)

/-!  Theorems. -/

/-- C2: at the failing input — shells `a` (enabled) and `b` (disabled),
command `enable a` — the selection `a` is already fully in the requested
state, so the fallback branch of `toggle_shells` runs; the code sets every
non-Dead shell, including the selected `a`, to the inverse of the
requested state, leaving `(a, b) = (disabled, disabled)`, whereas the
claim requires `a` unchanged and `b` inverted, `(enabled, enabled)`. -/
theorem c2_toggle_failing_input :
    ((toggleShells (charsOf "a") true
        [sampleShell 0 (charsOf "a") true ShellSt.idle,
         sampleShell 1 (charsOf "b") false ShellSt.idle]
        emptyNameRegistry true).1.map (fun s => s.enabled) = [false, false]) ∧
    [false, false] ≠ [true, true] := by
  exact ⟨by decide, by decide⟩

/-- C8: at the failing input — one enabled shell whose display name `x`
differs from its hostname `host` — the rename command with a blank name
argument leaves the display name unchanged and writes nothing to the PTY
(the empty-name branch of `do_rename` is a stub), whereas the claim
requires a reset to the hostname. -/
theorem c8_rename_empty_noop :
    ((doRename (charsOf " ") [sampleShell 0 (charsOf "x") true ShellSt.idle]).1.map
        (fun s => s.displayName) = [charsOf "x"]) ∧
    (doRename (charsOf " ") [sampleShell 0 (charsOf "x") true ShellSt.idle]).2 = [] ∧
    (sampleShell 0 (charsOf "x") true ShellSt.idle).hostname = charsOf "host" ∧
    charsOf "x" ≠ charsOf "host" := by
  exact ⟨by decide, by decide, by decide, by decide⟩

/-- C10 (amended): every ASCII letter makes the `send_ctrl` control-code
subtraction well defined, and the accepted argument `1` (a single
non-letter byte passing the length check) underflows; but
well-definedness is characterized by `lowercase(L) ≥ 0x61`, not by being
a letter. -/
theorem c10_send_ctrl_code :
    (∀ b : Nat, isAsciiLetter b = true → (sendCtrlCode b).isSome = true) ∧
    doSendCtrlParse (charsOf "1 *") = Except.ok (none, [charsOf "*"]) ∧
    doSendCtrlParse (charsOf "c host") = Except.ok (some 3, [charsOf "host"]) := by
  refine ⟨?_, by rfl, by rfl⟩
  intro b hb
  simp only [isAsciiLetter, Bool.or_eq_true, Bool.and_eq_true, decide_eq_true_eq] at hb
  simp only [sendCtrlCode, toLowerByte]
  split <;> rename_i h1
  · split <;> rename_i h2
    · rfl
    · simp only [Bool.and_eq_true, decide_eq_true_eq] at h1
      omega
  · split <;> rename_i h2
    · rfl
    · simp only [Bool.and_eq_true, decide_eq_true_eq, not_and] at h1
      omega

/-- C10 witness: the letter `c` (byte 99) is accepted and yields a code. -/
theorem c10_send_ctrl_code_witness :
    isAsciiLetter 99 = true ∧ (sendCtrlCode 99).isSome = true :=
  ⟨by decide, c10_send_ctrl_code.1 99 (by decide)⟩

/-- C10 counterexample to the claim as stated: the byte `~` (126) is not
an ASCII letter, yet the subtraction does not underflow — it is accepted
and produces control code 30 — so the computation is not well defined
*only* for letters. -/
theorem c10_counterexample :
    isAsciiLetter 126 = false ∧ sendCtrlCode 126 = some 30 ∧
    doSendCtrlParse (charsOf "~") = Except.ok (some 30, []) := by
  exact ⟨by decide, by decide, by rfl⟩

/-- C1 counterexample to the claim as stated: registering a `Rename`
action with nonempty payload `x` and processing the echoed trigger line
returns `Rename ""` — the payload is recomputed from the (empty)
remainder — not the registered action. -/
theorem c1_counterexample :
    ((cbProcess
        (cbAdd sampleCbRegistry (bytesOf "n") (CbAction.rename (bytesOf "x")) true
          (bytesOf "bbbbb")).2.2
        ((cbAdd sampleCbRegistry (bytesOf "n") (CbAction.rename (bytesOf "x")) true
            (bytesOf "bbbbb")).1 ++
          (cbAdd sampleCbRegistry (bytesOf "n") (CbAction.rename (bytesOf "x")) true
            (bytesOf "bbbbb")).2.1 ++ [10])).1 =
      some (CbAction.rename [])) ∧
    some (CbAction.rename []) ≠ some (CbAction.rename (bytesOf "x")) := by
  exact ⟨by decide, by decide⟩

/-- C3 counterexample to the consumption clause: the stored password is
not consumed — a NotStarted shell with password `pw` answers a second
`Password:` prompt with exactly the same automatic reply as the first. -/
theorem c3_counterexample :
    (handleData samplePwShell (bytesOf "Password:") 0 true).writes =
      [bytesOf "pw" ++ [10]] ∧
    (handleData (handleData samplePwShell (bytesOf "Password:") 0 true).shell
        (bytesOf "Password:") 0 true).writes = [bytesOf "pw" ++ [10]] ∧
    [bytesOf "pw" ++ [10]] ≠ ([] : List (List Nat)) := by
  exact ⟨by decide, by decide, by decide⟩

/-- C5 counterexample to the claim as stated: after allocating `h` and
`h#1`, a `change` releasing the alias `h#01` — a name the registry never
returned — frees the slot of the live `h#1`, and the next allocation
returns `h#1` again, so two names allocated and not released coincide. -/
theorem c5_counterexample :
    (runNameOps initNameTrace aliasReleaseOps).map (fun t => t.live) =
      some [bytesOf "h", bytesOf "h#1", bytesOf "h#1"] ∧
    ¬ [bytesOf "h", bytesOf "h#1", bytesOf "h#1"].Pairwise (fun a b => a ≠ b) := by
  exact ⟨by decide, by decide⟩

/-- C6 counterexample to the claim as stated: enabling `aaaa` and then
disabling the never-enabled `bbbb` (same length) drops the shared length
count, so `max_display_name_length` is 0 although `aaaa` (length 4) is
still marked enabled. -/
theorem c6_counterexample :
    (runNameOps initNameTrace staleDisableOps).map
        (fun t => (t.reg.maxLen, t.enabledNames)) = some (0, [bytesOf "aaaa"]) ∧
    maxLenOf [bytesOf "aaaa"] = 4 ∧ (0 : Nat) ≠ 4 := by
  exact ⟨by decide, by decide, by decide⟩


theorem printLines_preserves (sh : Shell) (l : List Nat) (m : Nat) :
    ((printLines sh l m).1).state = sh.state ∧
    ((printLines sh l m).1).enabled = sh.enabled ∧
    ((printLines sh l m).1).readBuffer = sh.readBuffer ∧
    ((printLines sh l m).1).writeBuffer = sh.writeBuffer ∧
    ((printLines sh l m).1).readInStateNotStarted = sh.readInStateNotStarted := by
  dsimp only [printLines]
  split
  · exact ⟨rfl, rfl, rfl, rfl, rfl⟩
  · exact ⟨rfl, rfl, rfl, rfl, rfl⟩

theorem changeState_fields (sh : Shell) (st : ShellSt) (w : Bool) :
    ((changeState sh st w).1).state = st ∧
    ((changeState sh st w).1).enabled = sh.enabled ∧
    ((changeState sh st w).1).readBuffer = sh.readBuffer ∧
    ((changeState sh st w).1).writeBuffer = sh.writeBuffer := by
  dsimp only [changeState]
  split
  · next h => exact ⟨h.symm, rfl, rfl, rfl⟩
  · split
    · exact ⟨rfl, rfl, rfl, rfl⟩
    · exact ⟨rfl, rfl, rfl, rfl⟩

theorem disconnectFn_fields (sh : Shell) (m : Nat) :
    ((disconnectFn sh m).1).state = ShellSt.dead ∧
    ((disconnectFn sh m).1).enabled = false ∧
    ((disconnectFn sh m).1).readBuffer = [] ∧
    ((disconnectFn sh m).1).writeBuffer = [] := by
  dsimp only [disconnectFn]
  split
  · next h =>
    refine ⟨(changeState_fields _ _ _).1, ?_, ?_, ?_⟩
    · rw [(changeState_fields _ _ _).2.1, (printLines_preserves _ _ _).2.1]
    · rw [(changeState_fields _ _ _).2.2.1, (printLines_preserves _ _ _).2.2.1]
    · rw [(changeState_fields _ _ _).2.2.2, (printLines_preserves _ _ _).2.2.2.1]
  · exact ⟨(changeState_fields _ _ _).1, (changeState_fields _ _ _).2.1,
      (changeState_fields _ _ _).2.2.1, (changeState_fields _ _ _).2.2.2⟩

theorem tryFastPath_fields (sh : Shell) (m : Nat) (s : Shell) (o : List (List Nat))
    (h : tryFastPath sh m = some (s, o)) :
    s.state = sh.state ∧ s.enabled = sh.enabled ∧ s.writeBuffer = sh.writeBuffer := by
  dsimp only [tryFastPath] at h
  split at h
  · split at h
    · next lastNl heq =>
      have hs : s = (printLines { sh with readBuffer := sh.readBuffer.drop (lastNl + 1) }
          (sh.readBuffer.take lastNl) m).1 := by
        have := congrArg (fun x => (Option.getD x (defaultShell, [])).1) h.symm
        simpa using this
      rw [hs]
      exact ⟨(printLines_preserves _ _ _).1, (printLines_preserves _ _ _).2.1,
        (printLines_preserves _ _ _).2.2.2.1⟩
    · exact absurd h (by simp)
  · exact absurd h (by simp)

theorem finishInit_fields (sh : Shell) (p : Option (List Nat)) :
    (finishInit sh p).shell.state = sh.state ∧
    (finishInit sh p).shell.enabled = sh.enabled ∧
    (finishInit sh p).shell.readBuffer = sh.readBuffer ∧
    (finishInit sh p).shell.writeBuffer = sh.writeBuffer ∧
    (sh.state ≠ ShellSt.notStarted → (finishInit sh p).writes = []) := by
  dsimp only [finishInit]
  split
  · next h =>
    refine ⟨rfl, rfl, rfl, rfl, fun hne => ?_⟩
    simp only [Bool.and_eq_true, decide_eq_true_eq] at h
    exact absurd h.1 hne
  · exact ⟨rfl, rfl, rfl, rfl, fun _ => rfl⟩

/-- Case analysis for one iteration of the `handle_data` line loop: from a
live shell it either continues on a live shell — writing nothing in
interactive mode, and not entering NotStarted from elsewhere — or returns
early through `disconnect` (only from NotStarted), in which case the shell
is Dead, disabled, and its buffers are empty. -/
theorem loopBody_cases (sh : Shell) (line : List Nat) (m : Nat) (intv : Bool)
    (p : Option (List Nat)) (hd : sh.state ≠ ShellSt.dead) :
    (∃ s w c p', loopBody sh line m intv p = StepRes.cont s w c p' ∧
       s.state ≠ ShellSt.dead ∧
       (sh.state ≠ ShellSt.notStarted → s.state ≠ ShellSt.notStarted) ∧
       (intv = true → w = [])) ∨
    (∃ s c p', loopBody sh line m intv p = StepRes.ret s [] c p' ∧
       s.state = ShellSt.dead ∧ s.enabled = false ∧ s.readBuffer = [] ∧
       s.writeBuffer = [] ∧ sh.state = ShellSt.notStarted) := by
  dsimp only [loopBody]
  split
  · -- SeenPrompt
    split
    · -- interactive
      left
      refine ⟨_, _, _, _, rfl, ?_, ?_, fun _ => rfl⟩
      · rw [(changeState_fields _ _ _).1]
        decide
      · intro _
        rw [(changeState_fields _ _ _).1]
        decide
    · -- non-interactive
      next hniv =>
      split
      · -- command present
        left
        refine ⟨_, _, _, _, rfl, hd, fun h => h, fun hiv => absurd hiv hniv⟩
      · left
        exact ⟨_, _, _, _, rfl, hd, fun h => h, fun _ => rfl⟩
  · -- Rename
    left
    exact ⟨_, _, _, _, rfl, hd, fun h => h, fun _ => rfl⟩
  · -- NoAction
    left
    exact ⟨_, _, _, _, rfl, hd, fun h => h, fun _ => rfl⟩
  · -- no trigger matched
    split
    · -- idle or running: print the line
      left
      refine ⟨_, _, _, _, rfl, ?_, ?_, fun _ => rfl⟩
      · rw [(printLines_preserves _ _ _).1]
        exact hd
      · intro h
        rw [(printLines_preserves _ _ _).1]
        exact h
    · split
      · -- NotStarted
        next hns =>
        split
        · -- authenticity sentinel: disconnect and return
          right
          exact ⟨_, _, _, rfl, (disconnectFn_fields _ _).1, (disconnectFn_fields _ _).2.1,
            (disconnectFn_fields _ _).2.2.1, (disconnectFn_fields _ _).2.2.2, hns⟩
        · split
          · -- host-identification advisory
            left
            refine ⟨_, _, _, _, rfl, ?_, ?_, fun _ => rfl⟩
            · rw [(printLines_preserves _ _ _).1]
              exact hd
            · intro h
              rw [(printLines_preserves _ _ _).1]
              exact h
          · left
            exact ⟨_, _, _, _, rfl, hd, fun h => h, fun _ => rfl⟩
      · left
        exact ⟨_, _, _, _, rfl, hd, fun h => h, fun _ => rfl⟩

/-- If the line loop starts on a live shell and ends Dead, the shell is
disabled with empty buffers (the only route to Dead is `disconnect`). -/
theorem handleLoop_dead_entry (m : Nat) (intv : Bool) :
    ∀ (fuel : Nat) (sh : Shell) (p : Option (List Nat)), sh.state ≠ ShellSt.dead →
      (handleLoop m intv fuel sh p).shell.state = ShellSt.dead →
      (handleLoop m intv fuel sh p).shell.enabled = false ∧
      (handleLoop m intv fuel sh p).shell.readBuffer = [] ∧
      (handleLoop m intv fuel sh p).shell.writeBuffer = [] := by
  intro fuel
  induction fuel with
  | zero =>
    intro sh p hlive hdead
    dsimp only [handleLoop] at hdead
    rw [(finishInit_fields sh p).1] at hdead
    exact absurd hdead hlive
  | succ n ih =>
    intro sh p hlive
    dsimp only [handleLoop]
    rcases hsp : splitFirstLine sh.readBuffer with _ | ⟨l, r⟩
    · intro hdead
      rw [(finishInit_fields sh p).1] at hdead
      exact absurd hdead hlive
    · dsimp only
      have hlive' : ({ sh with readBuffer := r } : Shell).state ≠ ShellSt.dead := hlive
      rcases loopBody_cases { sh with readBuffer := r } l m intv p hlive' with
        ⟨s, w, c, p', heq, hsd, _, _⟩ | ⟨s, c, p', heq, h1, h2, h3, h4, _⟩
      · rw [heq]
        dsimp only
        rcases hfp : tryFastPath s m with _ | ⟨s2, o2⟩
        · dsimp only
          intro hdead
          exact ih s p' hsd hdead
        · dsimp only
          intro hdead
          exact absurd ((tryFastPath_fields s m s2 o2 hfp).1 ▸ hdead) hsd
      · rw [heq]
        dsimp only
        intro _
        exact ⟨h2, h3, h4⟩

/-- In interactive mode the line loop writes nothing to the PTY unless it
starts in NotStarted (where the init string or password logic may write). -/
theorem handleLoop_no_writes (m : Nat) :
    ∀ (fuel : Nat) (sh : Shell) (p : Option (List Nat)),
      sh.state ≠ ShellSt.dead → sh.state ≠ ShellSt.notStarted →
      (handleLoop m true fuel sh p).writes = [] := by
  intro fuel
  induction fuel with
  | zero =>
    intro sh p _ hns
    exact (finishInit_fields sh p).2.2.2.2 hns
  | succ n ih =>
    intro sh p hlive hns
    dsimp only [handleLoop]
    rcases hsp : splitFirstLine sh.readBuffer with _ | ⟨l, r⟩
    · exact (finishInit_fields sh p).2.2.2.2 hns
    · dsimp only
      have hlive' : ({ sh with readBuffer := r } : Shell).state ≠ ShellSt.dead := hlive
      rcases loopBody_cases { sh with readBuffer := r } l m true p hlive' with
        ⟨s, w, c, p', heq, hsd, hsn, hw⟩ | ⟨s, c, p', heq, _, _, _, _, hstart⟩
      · rw [heq]
        dsimp only
        rcases hfp : tryFastPath s m with _ | ⟨s2, o2⟩
        · dsimp only
          rw [hw rfl, ih s p' hsd (hsn hns)]
          rfl
        · dsimp only
          exact hw rfl
      · exact absurd hstart hns

/-- C4: Dead is absorbing.  `handle_data` returns at once without
printing, buffering, writing or changing any field; `dispatch_write` and
`dispatch_command` write nothing and change nothing; `disconnect` and
`print_unfinished_line` never leave Dead; and any `handle_data` run that
ends Dead (having started live) leaves the shell disabled with empty read
and write buffers — as does `disconnect`, the only entry into Dead. -/
theorem c4_dead_absorbing :
    (∀ (sh : Shell) (d : List Nat) (m : Nat) (i : Bool),
       sh.state = ShellSt.dead → handleData sh d m i = ⟨sh, [], [], none⟩) ∧
    (∀ (sh : Shell) (b : List Nat), sh.state = ShellSt.dead →
       dispatchWrite sh b = (false, [])) ∧
    (∀ (sh : Shell) (cmd : List Nat), sh.state = ShellSt.dead →
       dispatchCommand sh cmd = (sh, [])) ∧
    (∀ (sh : Shell) (m : Nat), sh.state = ShellSt.dead →
       printUnfinished sh m = (sh, [])) ∧
    (∀ (sh : Shell) (m : Nat),
       ((disconnectFn sh m).1).state = ShellSt.dead ∧
       ((disconnectFn sh m).1).enabled = false ∧
       ((disconnectFn sh m).1).readBuffer = [] ∧
       ((disconnectFn sh m).1).writeBuffer = []) ∧
    (∀ (sh : Shell) (d : List Nat) (m : Nat) (i : Bool), sh.state ≠ ShellSt.dead →
       (handleData sh d m i).shell.state = ShellSt.dead →
       (handleData sh d m i).shell.enabled = false ∧
       (handleData sh d m i).shell.readBuffer = [] ∧
       (handleData sh d m i).shell.writeBuffer = []) := by
  refine ⟨?_, ?_, ?_, ?_, disconnectFn_fields, ?_⟩
  · intro sh d m i h
    simp only [handleData, h, if_pos]
  · intro sh b h
    simp only [dispatchWrite, h]
    simp
  · intro sh cmd h
    simp only [dispatchCommand, dispatchWrite, h]
    simp
  · intro sh m h
    simp only [printUnfinished, h]
    simp
  · intro sh d m i hlive
    dsimp only [handleData]
    rw [if_neg hlive]
    rcases hfp : tryFastPath { sh with readBuffer := sh.readBuffer ++ d } m with _ | ⟨s2, o2⟩
    · dsimp only
      split
      · intro hdead
        exact absurd hdead hlive
      · exact handleLoop_dead_entry m i _ { sh with readBuffer := sh.readBuffer ++ d } none hlive
    · dsimp only
      intro hdead
      exact absurd ((tryFastPath_fields _ m s2 o2 hfp).1 ▸ hdead) hlive

/-- C4 witness: a concrete Dead shell with junk in its read buffer is
returned untouched by `handle_data`, `dispatch_write`, `dispatch_command`
and `print_unfinished_line`. -/
theorem c4_dead_absorbing_witness :
    handleData sampleDeadShell (bytesOf "x\n") 0 true = ⟨sampleDeadShell, [], [], none⟩ ∧
    dispatchWrite sampleDeadShell (bytesOf "y") = (false, []) ∧
    dispatchCommand sampleDeadShell (bytesOf "y\n") = (sampleDeadShell, []) ∧
    printUnfinished sampleDeadShell 0 = (sampleDeadShell, []) :=
  ⟨c4_dead_absorbing.1 sampleDeadShell (bytesOf "x\n") 0 true rfl,
   c4_dead_absorbing.2.1 sampleDeadShell (bytesOf "y") rfl,
   c4_dead_absorbing.2.2.1 sampleDeadShell (bytesOf "y\n") rfl,
   c4_dead_absorbing.2.2.2.1 sampleDeadShell 0 rfl⟩

/-- C3 (amended): in NotStarted with a password configured, whenever the
accumulated buffer contains the case-insensitive `password:`,
`handle_data` writes exactly the password plus newline and discards the
read buffer, staying in NotStarted; the stored password is retained, not
consumed (see the counterexample), so every such prompt is answered; and
in interactive mode no other live state ever writes to the PTY. -/
theorem c3_password_reply :
    (∀ (sh : Shell) (pw data : List Nat) (m : Nat) (i : Bool),
       sh.state = ShellSt.notStarted →
       sh.password = some pw →
       containsBytes (bytesOf "password:") ((sh.readBuffer ++ data).map toLowerByte) = true →
       (handleData sh data m i).writes = [pw ++ [10]] ∧
       (handleData sh data m i).shell.readBuffer = [] ∧
       (handleData sh data m i).shell.password = some pw ∧
       (handleData sh data m i).shell.state = ShellSt.notStarted) ∧
    (∀ (sh : Shell) (data : List Nat) (m : Nat),
       sh.state ≠ ShellSt.dead → sh.state ≠ ShellSt.notStarted →
       (handleData sh data m true).writes = []) := by
  constructor
  · intro sh pw data m i hst hpw hseen
    have hlive : sh.state ≠ ShellSt.dead := by
      rw [hst]
      decide
    have hfp : tryFastPath { sh with readBuffer := sh.readBuffer ++ data } m = none := by
      dsimp only [tryFastPath]
      rw [if_neg]
      simp [hst]
    have hpp : passwordPromptSeen { sh with readBuffer := sh.readBuffer ++ data } = true := by
      simp only [List.map_append] at hseen
      dsimp only [passwordPromptSeen]
      simp [hst, hpw, hseen]
    dsimp only [handleData]
    rw [if_neg hlive, hfp]
    dsimp only
    rw [if_pos hpp]
    refine ⟨?_, rfl, hpw, hst⟩
    dsimp only
    rw [hpw]
    rfl
  · intro sh data m hlive hns
    dsimp only [handleData]
    rw [if_neg hlive]
    rcases hfp : tryFastPath { sh with readBuffer := sh.readBuffer ++ data } m with _ | ⟨s2, o2⟩
    · dsimp only
      have hpp : passwordPromptSeen { sh with readBuffer := sh.readBuffer ++ data } = false := by
        dsimp only [passwordPromptSeen]
        simp only [Bool.and_eq_true, decide_eq_true_eq, Bool.and_eq_false_iff]
        left
        left
        simpa using hns
      rw [if_neg (by simp [hpp])]
      exact handleLoop_no_writes m _ { sh with readBuffer := sh.readBuffer ++ data } none hlive hns
    · rfl

/-- C3 witness: a concrete NotStarted shell with password `pw` replies
`pw\n` to a `Password:` prompt, clearing its buffer and keeping state and
password. -/
theorem c3_password_reply_witness :
    (handleData samplePwShell (bytesOf "Password:") 0 true).writes =
      [bytesOf "pw" ++ [10]] ∧
    (handleData samplePwShell (bytesOf "Password:") 0 true).shell.readBuffer = [] ∧
    (handleData samplePwShell (bytesOf "Password:") 0 true).shell.password =
      some (bytesOf "pw") ∧
    (handleData samplePwShell (bytesOf "Password:") 0 true).shell.state =
      ShellSt.notStarted :=
  c3_password_reply.1 samplePwShell (bytesOf "pw") (bytesOf "Password:") 0 true rfl rfl
    (by decide)

/-- A nonempty pattern is found at position 0 of any extension of itself. -/
theorem firstSubstrIdx_self (pat rest : List Nat) (h : pat ≠ []) :
    firstSubstrIdx pat (pat ++ rest) = some 0 := by
  cases pat with
  | nil => exact absurd rfl h
  | cons a t =>
    rw [List.cons_append, firstSubstrIdx]
    rw [if_pos]
    rw [← List.cons_append, List.isPrefixOf_iff_prefix]
    exact List.prefix_append _ _

/-- The first slash of `xs ++ 47 :: ys` sits right after the slash-free
block `xs`. -/
theorem findIdx_slash_after (xs ys : List Nat) (h : ∀ x ∈ xs, x ≠ 47) :
    List.findIdx? (fun b => b = 47) (xs ++ 47 :: ys) = some xs.length := by
  induction xs with
  | nil => simp [List.findIdx?_cons]
  | cons a t ih =>
    have ha : a ≠ 47 := h a (List.mem_cons_self a t)
    rw [List.cons_append, List.findIdx?_cons]
    simp only [decide_eq_true_eq]
    rw [if_neg ha, List.findIdx?_succ, ih (fun x hx => h x (List.mem_cons_of_mem a hx))]
    rfl

/-- Digit bytes produced by `natDigitsAux` are ASCII digits. -/
theorem natDigitsAux_mem : ∀ (fuel n b : Nat), b ∈ natDigitsAux fuel n → 48 ≤ b ∧ b ≤ 57 := by
  intro fuel
  induction fuel with
  | zero => intro n b hb; simp [natDigitsAux] at hb
  | succ f ih =>
    intro n b hb
    rw [natDigitsAux] at hb
    split at hb
    · simp at hb
    · rcases List.mem_append.mp hb with h | h
      · exact ih _ b h
      · simp at h
        have := Nat.mod_lt n (show 0 < 10 by decide)
        omega

/-- Digit bytes of a decimal rendering are ASCII digits. -/
theorem digitsBytes_mem (n b : Nat) (hb : b ∈ digitsBytes n) : 48 ≤ b ∧ b ≤ 57 := by
  rw [digitsBytes] at hb
  split at hb
  · simp at hb
    omega
  · exact natDigitsAux_mem _ _ b hb

/-- Evaluate `process` on a line that is a slash-free block starting with
the common prefix, then the closing slash, then a newline: the candidate
trigger is exactly the block plus slash, the action comes back with a
`Rename` payload recomputed from the empty remainder, and a non-repeating
entry is removed. -/
theorem cbProcess_exact (reg : CbRegistry) (front : List Nat)
    (hne : reg.commonPfx ≠ [])
    (hfront : ∀ x ∈ front, x ≠ 47)
    (hpfx : ∃ x, front = reg.commonPfx ++ x) :
    (cbProcess reg (front ++ [47] ++ [10])).1 =
      (reg.entries (front ++ [47])).map (fun e => renameStripped e.action) ∧
    (cbProcess reg (front ++ [47] ++ [10])).2 =
      (match reg.entries (front ++ [47]) with
       | none => reg
       | some e =>
         if e.rep then reg
         else { reg with entries := fun k => if k = front ++ [47] then none else reg.entries k }) := by
  obtain ⟨x, hx⟩ := hpfx
  have hstart : firstSubstrIdx reg.commonPfx (front ++ [47] ++ [10]) = some 0 := by
    rw [hx, List.append_assoc, List.append_assoc]
    exact firstSubstrIdx_self _ _ hne
  have hfind : List.findIdx? (fun b => b = 47) (front ++ [47] ++ [10]) = some front.length := by
    have h2 : front ++ [47] ++ [10] = front ++ 47 :: [10] := by simp
    rw [h2]
    exact findIdx_slash_after _ _ hfront
  have htake : ((front ++ [47] ++ [10]).drop 0).take (front.length + 1) = front ++ [47] := by
    rw [List.drop_zero]
    have h3 : front.length + 1 = (front ++ [47]).length := by simp
    rw [h3, List.take_left]
  have hdrop : (front ++ [47] ++ [10]).drop (0 + front.length + 1) = [10] := by
    have h4 : 0 + front.length + 1 = (front ++ [47]).length := by simp
    rw [h4, List.drop_left]
  dsimp only [cbProcess]
  rw [hstart]
  dsimp only
  rw [List.drop_zero] at htake ⊢
  rw [hfind]
  dsimp only
  rw [htake, hdrop]
  cases hent : reg.entries (front ++ [47]) with
  | none => exact ⟨rfl, rfl⟩
  | some entry =>
    dsimp only [Option.map]
    cases hact : entry.action <;> simp [renameStripped]

/-- Decomposition of the halves and registry produced by `add`: the halves
reassemble to the full trigger, whose body before the closing slash is the
common prefix, the sanitized name, a colon, the random block, a colon and
the counter digits; the new registry keeps the prefix and maps the trigger
to the fresh entry. -/
theorem cbAdd_parts (reg : CbRegistry) (name : List Nat) (action : CbAction)
    (rep : Bool) (rand5 : List Nat) :
    (cbAdd reg name action rep rand5).1 ++ (cbAdd reg name action rep rand5).2.1 =
      (reg.commonPfx ++ name.map (fun b => if b = 47 then 95 else b) ++ [58] ++ rand5 ++
        [58] ++ digitsBytes reg.nrGenerated) ++ [47] ∧
    (cbAdd reg name action rep rand5).2.2.commonPfx = reg.commonPfx ∧
    (cbAdd reg name action rep rand5).2.2.entries =
      (fun k =>
        if k = (reg.commonPfx ++ name.map (fun b => if b = 47 then 95 else b) ++ [58] ++
            rand5 ++ [58] ++ digitsBytes reg.nrGenerated) ++ [47]
        then some ⟨action, rep⟩ else reg.entries k) := by
  refine ⟨?_, rfl, rfl⟩
  dsimp only [cbAdd]
  rw [List.take_append_drop]

/-- C1 (amended): for every name, action, repeat flag and slash-free
prefix and random material, the trigger halves returned by `add`
reassemble into a line whose first `process` call returns the registered
action — with a `Rename` payload recomputed (as empty) from the remainder
— and whose second identical call returns it again when `repeat` is true
and `none` when `repeat` is false, the entry having been removed. -/
theorem c1_callback_roundtrip (reg : CbRegistry) (name : List Nat) (action : CbAction)
    (rep : Bool) (rand5 : List Nat)
    (h0 : reg.commonPfx ≠ []) (h1 : ∀ x ∈ reg.commonPfx, x ≠ 47)
    (h2 : ∀ x ∈ rand5, x ≠ 47) :
    ∀ p1 p2 reg1, cbAdd reg name action rep rand5 = (p1, p2, reg1) →
      (cbProcess reg1 (p1 ++ p2 ++ [10])).1 = some (renameStripped action) ∧
      (cbProcess (cbProcess reg1 (p1 ++ p2 ++ [10])).2 (p1 ++ p2 ++ [10])).1 =
        (if rep then some (renameStripped action) else none) := by
  intro p1 p2 reg1 hadd
  have hp1 : p1 = (cbAdd reg name action rep rand5).1 := by rw [hadd]
  have hp2 : p2 = (cbAdd reg name action rep rand5).2.1 := by rw [hadd]
  have hr1 : reg1 = (cbAdd reg name action rep rand5).2.2 := by rw [hadd]
  subst hp1
  subst hp2
  subst hr1
  obtain ⟨hasm, hcp, hent⟩ := cbAdd_parts reg name action rep rand5
  rw [hasm]
  set F := reg.commonPfx ++ name.map (fun b => if b = 47 then 95 else b) ++ [58] ++ rand5 ++
    [58] ++ digitsBytes reg.nrGenerated with hF
  have hfrontOK : ∀ x ∈ F, x ≠ 47 := by
    intro x hx
    rw [hF] at hx
    simp only [List.append_assoc, List.mem_append, List.mem_map, List.mem_cons,
      List.not_mem_nil, or_false, List.mem_singleton] at hx
    rcases hx with h | ⟨b, _, hbe⟩ | h | h | h | h
    · exact h1 x h
    · by_cases hb : b = 47
      · rw [hb] at hbe
        simp at hbe
        omega
      · simp [hb] at hbe
        rw [← hbe]
        exact hb
    · omega
    · exact h2 x h
    · omega
    · have := digitsBytes_mem _ _ h
      omega
  have hcne : (cbAdd reg name action rep rand5).2.2.commonPfx ≠ [] := by
    rw [hcp]
    exact h0
  have hpfxOK : ∃ x, F = (cbAdd reg name action rep rand5).2.2.commonPfx ++ x := by
    refine ⟨List.map (fun b => if b = 47 then 95 else b) name ++
      ([58] ++ (rand5 ++ ([58] ++ digitsBytes reg.nrGenerated))), ?_⟩
    rw [hcp, hF]
    simp [List.append_assoc]
  obtain ⟨hfst, hsnd⟩ := cbProcess_exact _ F hcne hfrontOK hpfxOK
  have hlook : (cbAdd reg name action rep rand5).2.2.entries (F ++ [47]) =
      some ⟨action, rep⟩ := by
    rw [hent]
    simp
  have hfirst : (cbProcess (cbAdd reg name action rep rand5).2.2 (F ++ [47] ++ [10])).1 =
      some (renameStripped action) := by
    rw [hfst, hlook]
    rfl
  refine ⟨hfirst, ?_⟩
  rw [hsnd, hlook]
  dsimp only
  cases rep with
  | true =>
    rw [if_pos rfl]
    exact hfirst
  | false =>
    rw [if_neg (by simp)]
    obtain ⟨hfst2, _⟩ := cbProcess_exact
      { (cbAdd reg name action false rand5).2.2 with
          entries := fun k =>
            if k = F ++ [47] then none
            else (cbAdd reg name action false rand5).2.2.entries k }
      F hcne hfrontOK hpfxOK
    exact hfst2.trans (by simp)

/-- C1 witness: a concrete repeatable `SeenPrompt` registration whose
reassembled trigger line is recognized by two successive `process` calls. -/
theorem c1_callback_roundtrip_witness :
    (cbProcess (cbAdd sampleCbRegistry (bytesOf "prompt") CbAction.seenPrompt true
          (bytesOf "bbbbb")).2.2
        ((cbAdd sampleCbRegistry (bytesOf "prompt") CbAction.seenPrompt true
            (bytesOf "bbbbb")).1 ++
          (cbAdd sampleCbRegistry (bytesOf "prompt") CbAction.seenPrompt true
            (bytesOf "bbbbb")).2.1 ++ [10])).1 =
      some (renameStripped CbAction.seenPrompt) ∧
    (cbProcess
        (cbProcess (cbAdd sampleCbRegistry (bytesOf "prompt") CbAction.seenPrompt true
              (bytesOf "bbbbb")).2.2
          ((cbAdd sampleCbRegistry (bytesOf "prompt") CbAction.seenPrompt true
              (bytesOf "bbbbb")).1 ++
            (cbAdd sampleCbRegistry (bytesOf "prompt") CbAction.seenPrompt true
              (bytesOf "bbbbb")).2.1 ++ [10])).2
        ((cbAdd sampleCbRegistry (bytesOf "prompt") CbAction.seenPrompt true
            (bytesOf "bbbbb")).1 ++
          (cbAdd sampleCbRegistry (bytesOf "prompt") CbAction.seenPrompt true
            (bytesOf "bbbbb")).2.1 ++ [10])).1 =
      (if true then some (renameStripped CbAction.seenPrompt) else none) :=
  c1_callback_roundtrip sampleCbRegistry (bytesOf "prompt") CbAction.seenPrompt true
    (bytesOf "bbbbb") (by decide) (by decide) (by decide) _ _ _ rfl

/-- A running maximum never drops below its initial value. -/
theorem foldl_max_init_le {α : Type} (g : α → Nat) :
    ∀ (l : List α) (init : Nat), init ≤ l.foldl (fun m x => max m (g x)) init := by
  intro l
  induction l with
  | nil => intro init; exact Nat.le_refl init
  | cons y t ih =>
    intro init
    exact Nat.le_trans (Nat.le_max_left init (g y)) (ih (max init (g y)))

/-- A running maximum dominates every listed value. -/
theorem foldl_max_ge {α : Type} (g : α → Nat) :
    ∀ (l : List α) (init : Nat) (x : α), x ∈ l →
      g x ≤ l.foldl (fun m x => max m (g x)) init := by
  intro l
  induction l with
  | nil => intro _ x hx; simp at hx
  | cons y t ih =>
    intro init x hx
    rcases List.mem_cons.mp hx with h | h
    · subst h
      exact Nat.le_trans (Nat.le_max_right init (g x)) (foldl_max_init_le g t _)
    · exact ih _ x h

/-- Indexing a mapped range below its length. -/
theorem getD_range_map (f : Nat → Nat) (n j : Nat) (hj : j < n) :
    ((List.range n).map f).getD j 0 = f j := by
  rw [List.getD_eq_getElem?_getD, List.getElem?_map, List.getElem?_range hj]
  rfl

/-- Every cell is no wider than its column maximum. -/
theorem colMaxLens_bound (L : List (List (List Nat))) (n : Nat) (r : List (List Nat))
    (hr : r ∈ L) (j : Nat) (hj : j < n) :
    (r.getD j []).length ≤ (colMaxLens L n).getD j 0 := by
  rw [colMaxLens, getD_range_map _ _ _ hj]
  exact foldl_max_ge (fun row => (row.getD j []).length) L 0 r hr

/-- Every rendered row ends with the newline byte. -/
theorem renderRow_newline (maxLens : List Nat) (nr : Nat) :
    ∀ (cols : List (List Nat)) (i : Nat), ∃ p, renderRow maxLens nr i cols = p ++ [10] := by
  intro cols
  induction cols with
  | nil => intro i; exact ⟨[], rfl⟩
  | cons c rest ih =>
    intro i
    obtain ⟨p, hp⟩ := ih (i + 1)
    refine ⟨(if 0 < i then [32] else []) ++ c ++
      (if i < nr - 1 then List.replicate (maxLens.getD i 0 - c.length) 32 else []) ++ p, ?_⟩
    rw [renderRow, hp]
    simp [List.append_assoc]

/-- Offset of column `K` within the tail rendering that starts at column
index `i ≥ 1`: each earlier column contributes its separator space plus
its padded width, and column `K` sits after its own separator space.  When
`K` is the last column of the whole table, what follows its content is
exactly the newline. -/
theorem renderRow_split (maxLens : List Nat) (nr : Nat) :
    ∀ (K : Nat) (cols : List (List Nat)) (i : Nat), 1 ≤ i → K < cols.length →
      i + cols.length = nr →
      (∀ j, j < K → (cols.getD j []).length ≤ maxLens.getD (i + j) 0) →
      ∃ pre suf, renderRow maxLens nr i cols = pre ++ cols.getD K [] ++ suf ∧
        pre.length = ((List.range K).map (fun j => 1 + maxLens.getD (i + j) 0)).sum + 1 ∧
        (K = cols.length - 1 → suf = [10]) := by
  intro K
  induction K with
  | zero =>
    intro cols i hi hK hnr _
    cases cols with
    | nil => simp at hK
    | cons c rest =>
      refine ⟨[32], (if i < nr - 1 then List.replicate (maxLens.getD i 0 - c.length) 32
        else []) ++ renderRow maxLens nr (i + 1) rest, ?_, by simp, ?_⟩
      · rw [renderRow, if_pos (show 0 < i by omega)]
        simp [List.append_assoc]
      · intro hlast
        have hrest : rest = [] := by
          cases rest with
          | nil => rfl
          | cons d t => simp at hlast
        subst hrest
        have hpad : ¬ i < nr - 1 := by
          simp at hnr
          omega
        rw [if_neg hpad, renderRow]
        rfl
  | succ K ih =>
    intro cols i hi hK hnr hbound
    cases cols with
    | nil => simp at hK
    | cons c rest =>
      have hKr : K < rest.length := by
        simp at hK
        omega
      have hnr' : (i + 1) + rest.length = nr := by
        simp at hnr
        omega
      have hbound' : ∀ j, j < K → (rest.getD j []).length ≤ maxLens.getD (i + 1 + j) 0 := by
        intro j hj
        have := hbound (j + 1) (by omega)
        simpa [Nat.add_assoc, Nat.add_comm 1 j] using this
      obtain ⟨pre', suf', heq', hlen', hlast'⟩ := ih rest (i + 1) (by omega) hKr hnr' hbound'
      have hpadp : i < nr - 1 := by
        have : rest.length ≥ 1 := by omega
        omega
      refine ⟨[32] ++ c ++ List.replicate (maxLens.getD i 0 - c.length) 32 ++ pre',
        suf', ?_, ?_, ?_⟩
      · rw [renderRow, if_pos (show 0 < i by omega), if_pos hpadp, heq']
        simp [List.append_assoc]
      · have hc : c.length ≤ maxLens.getD i 0 := by
          have := hbound 0 (by omega)
          simpa using this
        have hshift : ((List.range (K + 1)).map (fun j => 1 + maxLens.getD (i + j) 0)).sum =
            (1 + maxLens.getD i 0) +
              ((List.range K).map (fun j => 1 + maxLens.getD (i + 1 + j) 0)).sum := by
          rw [List.range_succ_eq_map, List.map_cons, List.sum_cons, List.map_map]
          have hfun : ∀ a ∈ List.range K,
              ((fun j => 1 + maxLens.getD (i + j) 0) ∘ (fun j => j + 1)) a =
                1 + maxLens.getD (i + 1 + a) 0 := by
            intro a _
            simp only [Function.comp]
            have hix : i + (a + 1) = i + 1 + a := by omega
            rw [hix]
          rw [List.map_congr_left hfun]
          simp
        simp only [List.length_append, List.length_cons, List.length_nil,
          List.length_replicate, hlen', hshift]
        omega
      · intro hlast
        apply hlast'
        simp at hlast ⊢
        omega

/-- Splitting off the `1 +` of per-column separator contributions. -/
theorem sum_map_one_add (f : Nat → Nat) :
    ∀ K : Nat, ((List.range K).map (fun j => 1 + f j)).sum =
      K + ((List.range K).map f).sum := by
  intro K
  induction K with
  | zero => rfl
  | succ n ih =>
    rw [List.range_succ, List.map_append, List.map_append, List.sum_append,
      List.sum_append, ih]
    simp
    omega

/-- Offset of column `K` in a fully rendered row: the sum of the earlier
column maxima plus one separator per column.  For the last column the
content is followed by exactly the newline. -/
theorem renderRow_offset (maxLens : List Nat) (nr : Nat) (cols : List (List Nat))
    (hlen : cols.length = nr) (K : Nat) (hK : K < nr)
    (hbound : ∀ j, j < nr → (cols.getD j []).length ≤ maxLens.getD j 0) :
    ∃ pre suf, renderRow maxLens nr 0 cols = pre ++ cols.getD K [] ++ suf ∧
      pre.length = colOffset maxLens K ∧ (K = nr - 1 → suf = [10]) := by
  cases cols with
  | nil =>
    rw [← hlen] at hK
    simp at hK
  | cons c rest =>
    cases K with
    | zero =>
      refine ⟨[], (if 0 < nr - 1 then List.replicate (maxLens.getD 0 0 - c.length) 32
        else []) ++ renderRow maxLens nr 1 rest, ?_, by simp [colOffset], ?_⟩
      · rw [renderRow, if_neg (by omega)]
        simp [List.append_assoc]
      · intro hlast
        have hnr1 : nr = 1 := by omega
        have hrest : rest = [] := by
          simp [hnr1] at hlen
          exact hlen
        subst hrest
        rw [if_neg (by omega), renderRow]
        rfl
    | succ K' =>
      have hKr : K' < rest.length := by
        simp at hlen
        omega
      have hnr' : 1 + rest.length = nr := by
        simp at hlen
        omega
      have hbound' : ∀ j, j < K' → (rest.getD j []).length ≤ maxLens.getD (1 + j) 0 := by
        intro j hj
        have hx := hbound (j + 1) (by omega)
        rw [List.getD_cons_succ] at hx
        have hc1 : 1 + j = j + 1 := by omega
        rw [hc1]
        exact hx
      obtain ⟨pre', suf', heq', hlen', hlast'⟩ :=
        renderRow_split maxLens nr K' rest 1 (by omega) hKr hnr' hbound'
      have hpad0 : 0 < nr - 1 := by omega
      have hc0 : c.length ≤ maxLens.getD 0 0 := by
        have := hbound 0 (by omega)
        simpa using this
      refine ⟨c ++ List.replicate (maxLens.getD 0 0 - c.length) 32 ++ pre', suf', ?_, ?_, ?_⟩
      · rw [renderRow, if_neg (by omega), if_pos hpad0, heq']
        simp [List.append_assoc]
      · have hco : colOffset maxLens (K' + 1) =
            maxLens.getD 0 0 + ((List.range K').map (fun j => maxLens.getD (1 + j) 0)).sum +
              (K' + 1) := by
          rw [colOffset, List.range_succ_eq_map, List.map_cons, List.sum_cons, List.map_map]
          have hmc : (List.map ((fun j => maxLens.getD j 0) ∘ Nat.succ) (List.range K')).sum =
              (List.map (fun j => maxLens.getD (1 + j) 0) (List.range K')).sum := by
            congr 1
            apply List.map_congr_left
            intro a _
            show maxLens.getD (Nat.succ a) 0 = maxLens.getD (1 + a) 0
            congr 1
            omega
          omega
        have hsum := sum_map_one_add (fun j => maxLens.getD (1 + j) 0) K'
        simp only [List.length_append, List.length_replicate, hlen', hco, hsum]
        omega
      · intro hlast
        apply hlast'
        omega

/-- C9: for a nonempty table whose rows all have the same number of
columns, `format_info` succeeds and renders each row so that every column
K starts at the same byte offset in every row — the sum of the earlier
column maxima plus one separator space per column — the last column is
followed by nothing but the newline, and every row ends with a newline. -/
theorem c9_format_info (L : List (List (List Nat))) (n : Nat)
    (hne : L ≠ []) (hlen : ∀ r ∈ L, r.length = n) :
    formatInfo L = some (L.map (renderRow (colMaxLens L n) n 0)) ∧
    (∀ r ∈ L, ∀ K, K < n →
      ∃ pre suf, renderRow (colMaxLens L n) n 0 r = pre ++ r.getD K [] ++ suf ∧
        pre.length = colOffset (colMaxLens L n) K ∧ (K = n - 1 → suf = [10])) ∧
    (∀ r ∈ L, ∃ p, renderRow (colMaxLens L n) n 0 r = p ++ [10]) := by
  refine ⟨?_, ?_, ?_⟩
  · cases L with
    | nil => exact absurd rfl hne
    | cons f rest =>
      have hf : f.length = n := hlen f (List.mem_cons_self f rest)
      dsimp only [formatInfo]
      rw [hf, if_pos]
      rw [List.all_eq_true]
      intro r hr
      simp [hlen r hr]
  · intro r hr K hK
    exact renderRow_offset (colMaxLens L n) n r (hlen r hr) K hK
      (fun j hj => colMaxLens_bound L n r hr j hj)
  · intro r _
    exact renderRow_newline (colMaxLens L n) n r 0

/-- C9 witness: a concrete two-row, three-column table. -/
theorem c9_format_info_witness :
    formatInfo [[bytesOf "h1", bytesOf "enabled", bytesOf "idle:"],
        [bytesOf "longhost", bytesOf "disabled", bytesOf "dead:"]] =
      some ([[bytesOf "h1", bytesOf "enabled", bytesOf "idle:"],
          [bytesOf "longhost", bytesOf "disabled", bytesOf "dead:"]].map
        (renderRow (colMaxLens [[bytesOf "h1", bytesOf "enabled", bytesOf "idle:"],
            [bytesOf "longhost", bytesOf "disabled", bytesOf "dead:"]] 3) 3 0)) :=
  (c9_format_info [[bytesOf "h1", bytesOf "enabled", bytesOf "idle:"],
      [bytesOf "longhost", bytesOf "disabled", bytesOf "dead:"]] 3
    (by decide) (by decide)).1

/-- Peel the first element off a mapped range. -/
theorem map_range_shift {α : Type} (f : Nat → α) (n : Nat) :
    (List.range (n + 1)).map f = f 0 :: (List.range n).map (fun k => f (k + 1)) := by
  rw [List.range_succ_eq_map, List.map_cons, List.map_map]
  congr 1

/-- Ascending closed form of the `iter_numbers` loop: starting at `s` with
end value `s + d` and fuel `d + 1`, it formats `s, s + 1, …, s + d`. -/
theorem iterLoop_asc (zp : Bool) (w : Nat) :
    ∀ (d s : Nat), iterNumbersLoop (s + d) true zp w (d + 1) s =
      (List.range (d + 1)).map (fun k => fmtRangeNum zp w (s + k)) := by
  intro d
  induction d with
  | zero =>
    intro s
    rw [iterNumbersLoop, if_pos (by omega : s = s + 0)]
    simp [List.range_succ]
  | succ dd ih =>
    intro s
    rw [iterNumbersLoop, if_neg (by omega : ¬ s = s + (dd + 1)), if_pos rfl]
    have hs : s + (dd + 1) = (s + 1) + dd := by omega
    rw [hs, map_range_shift (fun k => fmtRangeNum zp w (s + k)) (dd + 1), ih (s + 1)]
    simp only [Nat.add_zero]
    congr 1
    apply List.map_congr_left
    intro a _
    have hx : s + 1 + a = s + (a + 1) := by omega
    rw [hx]

/-- Descending closed form of the `iter_numbers` loop: starting at `e + d`
with end value `e` and fuel `d + 1`, it formats `e + d, …, e + 1, e`. -/
theorem iterLoop_desc (zp : Bool) (w : Nat) :
    ∀ (d e : Nat), iterNumbersLoop e false zp w (d + 1) (e + d) =
      (List.range (d + 1)).map (fun k => fmtRangeNum zp w (e + d - k)) := by
  intro d
  induction d with
  | zero =>
    intro e
    rw [iterNumbersLoop, if_pos (by omega : e + 0 = e)]
    simp [List.range_succ]
  | succ dd ih =>
    intro e
    rw [iterNumbersLoop, if_neg (by omega : ¬ e + (dd + 1) = e),
      if_neg (by simp : ¬ false = true)]
    have hs : e + (dd + 1) - 1 = e + dd := by omega
    rw [hs, map_range_shift (fun k => fmtRangeNum zp w (e + (dd + 1) - k)) (dd + 1), ih e]
    simp only [Nat.sub_zero]
    congr 1
    apply List.map_congr_left
    intro a _
    have hx : e + (dd + 1) - (a + 1) = e + dd - a := by omega
    rw [hx]


/-- Closed form of `iter_numbers`: the inclusive range from the start
value to the end value, ascending when start ≤ end and descending
otherwise, each entry formatted with the computed zero-padding flag and
width. -/
theorem iterNumbers_closed (a b : List Char) :
    iterNumbers a b =
      (if rangeVal a ≤ rangeVal b
       then (List.range (rangeVal b - rangeVal a + 1)).map
         (fun k => fmtRangeNum
           ((a.length > 1 && a.headD '0' = '0') || (b.length > 1 && b.headD '0' = '0'))
           (max a.length b.length) (rangeVal a + k))
       else (List.range (rangeVal a - rangeVal b + 1)).map
         (fun k => fmtRangeNum
           ((a.length > 1 && a.headD '0' = '0') || (b.length > 1 && b.headD '0' = '0'))
           (max a.length b.length) (rangeVal a - k))) := by
  dsimp only [iterNumbers]
  by_cases h : rangeVal a ≤ rangeVal b
  · rw [if_pos h, if_pos h, decide_eq_true h]
    obtain ⟨d, hd⟩ : ∃ d, rangeVal b = rangeVal a + d := ⟨rangeVal b - rangeVal a, by omega⟩
    rw [hd]
    have hfuel : rangeVal a + d - rangeVal a = d := by omega
    rw [hfuel]
    exact iterLoop_asc _ _ d (rangeVal a)
  · rw [if_neg h, if_neg h, decide_eq_false h]
    obtain ⟨d, hd⟩ : ∃ d, rangeVal a = rangeVal b + d := ⟨rangeVal a - rangeVal b, by omega⟩
    rw [hd]
    have hfuel : rangeVal b + d - rangeVal b = d := by omega
    rw [hfuel]
    exact iterLoop_desc _ _ d (rangeVal b)

/-- A `SYNTAX_RE` match decomposes the input: the matched region body is
a nonempty run of range characters delimited by `<` and `>`, and the
input is the prefix, the delimited region, and the suffix in order. -/
theorem findRegion_decomp :
    ∀ (s pre inner suf : List Char), findRegion s = some (pre, inner, suf) →
      s = pre ++ '<' :: (inner ++ '>' :: suf) ∧ inner ≠ [] ∧ inner.all isRangeChar = true
  | [], pre, inner, suf, h => by simp [findRegion] at h
  | c :: rest, pre, inner, suf, h => by
    dsimp only [findRegion] at h
    by_cases hc : c = '<'
    · rw [if_pos hc, List.span_eq_take_drop isRangeChar rest] at h
      split at h
      · rename_i after run sufp hh tl hd htk
        dsimp only at h hd htk
        injection h with h1
        injection h1 with hpre h2
        injection h2 with hinner hsuf
        subst hpre hinner hsuf hc
        refine ⟨?_, ?_, ?_⟩
        · show '<' :: rest = [] ++ '<' :: (rest.takeWhile isRangeChar ++ '>' :: sufp)
          rw [List.nil_append, ← hd, List.takeWhile_append_dropWhile]
        · rw [htk]
          exact List.cons_ne_nil _ _
        · exact List.all_eq_true.2 (fun x hx => List.mem_takeWhile_imp hx)
      · rw [Option.map_eq_some'] at h
        obtain ⟨⟨p', i', s'⟩, hf, heq⟩ := h
        injection heq with h1 h2
        injection h2 with hinner hsuf
        obtain ⟨hs, hni, hall⟩ := findRegion_decomp rest p' i' s' hf
        subst hinner hsuf
        rw [← h1]
        exact ⟨by rw [List.cons_append, hs], hni, hall⟩
    · rw [if_neg hc] at h
      rw [Option.map_eq_some'] at h
      obtain ⟨⟨p', i', s'⟩, hf, heq⟩ := h
      injection heq with h1 h2
      injection h2 with hinner hsuf
      obtain ⟨hs, hni, hall⟩ := findRegion_decomp rest p' i' s' hf
      subst hinner hsuf
      rw [← h1]
      exact ⟨by rw [List.cons_append, hs], hni, hall⟩

theorem countLt_append (a b : List Char) : countLt (a ++ b) = countLt a + countLt b := by
  dsimp only [countLt]
  rw [List.filter_append, List.length_append]

theorem countLt_rangeRun (l : List Char) (h : l.all isRangeChar = true) : countLt l = 0 := by
  dsimp only [countLt]
  rw [List.length_eq_zero, List.filter_eq_nil]
  intro c hc
  have hr : isRangeChar c = true := List.all_eq_true.1 h c hc
  intro he
  have : c = '<' := by exact_mod_cast of_decide_eq_true he
  subst this
  simp [isRangeChar] at hr

theorem fmtRangeNum_countLt (zp : Bool) (w i : Nat) : countLt (fmtRangeNum zp w i) = 0 := by
  dsimp only [fmtRangeNum, countLt]
  have hnat : (natChars i).filter (fun c => decide (c = '<')) = [] := by
    rw [List.filter_eq_nil]
    intro c hc
    dsimp only [natChars] at hc
    rw [List.mem_map] at hc
    obtain ⟨b, hb, hcb⟩ := hc
    obtain ⟨hlo, hhi⟩ := digitsBytes_mem _ _ hb
    intro he
    have hce : c = '<' := of_decide_eq_true he
    rw [← hcb] at hce
    revert hce
    interval_cases b <;> decide
  split
  · rw [List.filter_append, hnat, List.append_nil, List.length_eq_zero, List.filter_eq_nil]
    intro c hc he
    have := List.eq_of_mem_replicate hc
    subst this
    exact absurd (of_decide_eq_true he) (by decide)
  · rw [hnat]
    rfl

theorem iterNumbers_countLt (a b num : List Char) (h : num ∈ iterNumbers a b) :
    countLt num = 0 := by
  rw [iterNumbers_closed] at h
  split at h <;>
  · rw [List.mem_map] at h
    obtain ⟨k, _, hk⟩ := h
    rw [← hk]
    exact fmtRangeNum_countLt ..

theorem countLt_of_region (s pre inner suf : List Char)
    (h : findRegion s = some (pre, inner, suf)) :
    countLt s = countLt pre + countLt suf + 1 := by
  obtain ⟨hs, _, hall⟩ := findRegion_decomp s pre inner suf h
  rw [hs, countLt_append]
  have h1 : countLt ('<' :: (inner ++ '>' :: suf)) = countLt (inner ++ '>' :: suf) + 1 := by
    simp [countLt, List.filter_cons]
  have h2 : countLt (inner ++ '>' :: suf) = countLt inner + countLt ('>' :: suf) :=
    countLt_append ..
  have h3 : countLt ('>' :: suf) = countLt suf := by
    simp [countLt, List.filter_cons]
  have h4 : countLt inner = 0 := countLt_rangeRun inner hall
  omega

/-- The fuel of `expandHostsF` is irrelevant once it exceeds the number
of `<` characters: each expansion step removes exactly one `<`. -/
theorem expandHostsF_fuel :
    ∀ (f1 : Nat) (s : List Char) (f2 : Nat), countLt s < f1 → countLt s < f2 →
      expandHostsF f1 s = expandHostsF f2 s
  | 0, s, f2, h1, h2 => absurd h1 (by omega)
  | f1 + 1, s, f2, h1, h2 => by
    cases f2 with
    | zero => omega
    | succ g2 =>
      dsimp only [expandHostsF]
      rcases hr : findRegion s with _ | ⟨pre, inner, suf⟩
      · rfl
      · dsimp only
        have hcs := countLt_of_region s pre inner suf hr
        apply List.foldl_ext
        intro acc item _
        rcases hp : parseItem item with _ | se
        · rfl
        · dsimp only
          apply List.foldl_ext
          intro acc2 num hnum
          have hnum0 : countLt num = 0 := iterNumbers_countLt se.1 se.2 num hnum
          have hlt : countLt (pre ++ num ++ suf) < f1 ∧ countLt (pre ++ num ++ suf) < g2 := by
            rw [countLt_append, countLt_append]
            omega
          rw [expandHostsF_fuel f1 (pre ++ num ++ suf) g2 hlt.1 hlt.2]

/-- C7: `expand_syntax` returns the input alone when it contains no
`<…>` region; otherwise the input decomposes as a prefix, a `<`, a
nonempty body of digits, commas and dashes, a `>`, and a suffix, and the
result folds over the body's comma-separated items, each item expanding
through `iter_numbers` to the inclusive range — ascending when start ≤
end, descending otherwise, zero-padded to the wider endpoint width
exactly when an endpoint has a leading zero and more than one digit —
with every produced number substituted between prefix and suffix and the
whole recursively re-expanded; in particular the reversed range
`h<3-1>` expands to `h3, h2, h1`. -/
theorem c7_expand_roundtrip :
    (∀ s : List Char, findRegion s = none → expandHosts s = [s]) ∧
    (∀ s pre inner suf : List Char, findRegion s = some (pre, inner, suf) →
      s = pre ++ '<' :: (inner ++ '>' :: suf) ∧ inner ≠ [] ∧ inner.all isRangeChar = true ∧
      expandHosts s = (inner.splitOn ',').foldl
        (fun acc item =>
          match parseItem item with
          | none => acc
          | some (a, b) => (iterNumbers a b).foldl
              (fun acc2 num => acc2 ++ expandHosts (pre ++ num ++ suf)) acc) []) ∧
    (∀ a b : List Char, iterNumbers a b =
      (if rangeVal a ≤ rangeVal b
       then (List.range (rangeVal b - rangeVal a + 1)).map
         (fun k => fmtRangeNum
           ((a.length > 1 && a.headD '0' = '0') || (b.length > 1 && b.headD '0' = '0'))
           (max a.length b.length) (rangeVal a + k))
       else (List.range (rangeVal a - rangeVal b + 1)).map
         (fun k => fmtRangeNum
           ((a.length > 1 && a.headD '0' = '0') || (b.length > 1 && b.headD '0' = '0'))
           (max a.length b.length) (rangeVal a - k)))) ∧
    expandHosts (charsOf "h<3-1>") = [charsOf "h3", charsOf "h2", charsOf "h1"] := by
  refine ⟨?_, ?_, iterNumbers_closed, by decide⟩
  · intro s h
    dsimp only [expandHosts, expandHostsF]
    rw [h]
  · intro s pre inner suf h
    obtain ⟨hs, hni, hall⟩ := findRegion_decomp s pre inner suf h
    have hcs := countLt_of_region s pre inner suf h
    refine ⟨hs, hni, hall, ?_⟩
    conv_lhs => dsimp only [expandHosts, expandHostsF]; rw [h]
    apply List.foldl_ext
    intro acc item _
    rcases hp : parseItem item with _ | ⟨a, b⟩
    · rfl
    · dsimp only
      apply List.foldl_ext
      intro acc2 num hnum
      have hnum0 : countLt num = 0 := iterNumbers_countLt a b num hnum
      congr 1
      dsimp only [expandHosts]
      apply expandHostsF_fuel (countLt s) (pre ++ num ++ suf) (countLt (pre ++ num ++ suf) + 1)
      · rw [countLt_append, countLt_append]
        omega
      · omega

/-- The no-region conjunct of the expansion theorem at a concrete input:
a name with no `<` expands to itself. -/
theorem c7_expand_roundtrip_witness : expandHosts (charsOf "host") = [charsOf "host"] :=
  c7_expand_roundtrip.1 (charsOf "host") (by decide)

theorem getD_set_ne (v : Bool) :
    ∀ (l : List Bool) (i j : Nat), i ≠ j → (l.set i v).getD j false = l.getD j false
  | [], _, _, _ => rfl
  | b :: t, 0, 0, h => absurd rfl h
  | b :: t, 0, j + 1, _ => by simp [List.set]
  | b :: t, i + 1, 0, _ => by simp [List.set]
  | b :: t, i + 1, j + 1, h => by
    simp only [List.set, List.getD_cons_succ]
    exact getD_set_ne v t i j (fun he => h (by omega))

theorem getD_set_self (v : Bool) :
    ∀ (l : List Bool) (i : Nat), i < l.length → (l.set i v).getD i false = v
  | [], i, h => absurd h (by simp)
  | b :: t, 0, _ => rfl
  | b :: t, i + 1, h => by
    simp only [List.set, List.getD_cons_succ]
    exact getD_set_self v t i (by simpa using h)

theorem getD_append_left :
    ∀ (l l' : List Bool) (i : Nat), i < l.length → (l ++ l').getD i false = l.getD i false
  | [], _, i, h => absurd h (by simp)
  | b :: t, l', 0, _ => rfl
  | b :: t, l', i + 1, h => by
    simp only [List.cons_append, List.getD_cons_succ]
    exact getD_append_left t l' i (by simpa using h)

theorem getD_append_last (l : List Bool) (v : Bool) :
    (l ++ [v]).getD l.length false = v := by
  induction l with
  | nil => rfl
  | cons b t ih => simp [ih]

theorem getD_length_le :
    ∀ (l : List Bool) (i : Nat), l.length ≤ i → l.getD i false = false
  | [], _, _ => by simp
  | b :: t, 0, h => absurd h (by simp)
  | b :: t, i + 1, h => by
    simp only [List.getD_cons_succ]
    exact getD_length_le t i (by simpa using h)

theorem getD_eraseIdx_lt :
    ∀ (l : List Bool) (p j : Nat), j < p → (l.eraseIdx p).getD j false = l.getD j false
  | [], _, _, _ => rfl
  | b :: t, 0, j, h => absurd h (by omega)
  | b :: t, p + 1, 0, _ => rfl
  | b :: t, p + 1, j + 1, h => by
    simp only [List.eraseIdx, List.getD_cons_succ]
    exact getD_eraseIdx_lt t p j (by omega)

theorem getD_popTrailing :
    ∀ (l : List Bool) (i : Nat), l.getD i false = true → (popTrailing l).getD i false = true
  | [], i, h => by simp at h
  | b :: t, i, h => by
    dsimp only [popTrailing]
    rcases hp : popTrailing t with _ | ⟨c, rest⟩
    · cases i with
      | zero =>
        simp only [List.getD_cons_zero] at h
        rw [h]
        rfl
      | succ j =>
        simp only [List.getD_cons_succ] at h
        have := getD_popTrailing t j h
        rw [hp] at this
        simp at this
    · cases i with
      | zero =>
        simpa using h
      | succ j =>
        simp only [List.getD_cons_succ] at h ⊢
        have := getD_popTrailing t j h
        rwa [hp] at this

theorem digitsVal_append_single (l : List Nat) (d : Nat) :
    digitsVal (l ++ [d]) = digitsVal l * 10 + (d - 48) := by
  dsimp only [digitsVal]
  rw [List.foldl_append]
  rfl

theorem natDigitsAux_val : ∀ (fuel n : Nat), n ≤ fuel → digitsVal (natDigitsAux fuel n) = n
  | 0, n, h => by
    have : n = 0 := by omega
    subst this
    rfl
  | fuel + 1, n, h => by
    dsimp only [natDigitsAux]
    by_cases hn : n = 0
    · rw [if_pos hn, hn]
      rfl
    · rw [if_neg hn, digitsVal_append_single]
      have hdiv : n / 10 < n := Nat.div_lt_self (by omega) (by omega)
      rw [natDigitsAux_val fuel (n / 10) (by omega)]
      have := Nat.div_add_mod n 10
      omega

theorem digitsVal_digitsBytes (n : Nat) : digitsVal (digitsBytes n) = n := by
  dsimp only [digitsBytes]
  by_cases hn : n = 0
  · rw [if_pos hn, hn]
    rfl
  · rw [if_neg hn]
    exact natDigitsAux_val (n + 1) n (by omega)

theorem digitsBytes_ne_nil (n : Nat) : digitsBytes n ≠ [] := by
  dsimp only [digitsBytes]
  by_cases hn : n = 0
  · rw [if_pos hn]
    exact List.cons_ne_nil _ _
  · rw [if_neg hn]
    cases n with
    | zero => exact absurd rfl hn
    | succ m =>
      dsimp only [natDigitsAux]
      rw [if_neg hn]
      intro he
      apply congrArg List.length at he
      simp at he

theorem parseUsize_digitsBytes (n : Nat) : parseUsize (digitsBytes n) = n := by
  have h1 : digitsBytes n ≠ [] := digitsBytes_ne_nil n
  have h2 : (digitsBytes n).all isDigitByte = true := by
    rw [List.all_eq_true]
    intro b hb
    have := digitsBytes_mem n b hb
    dsimp only [isDigitByte]
    simp only [Bool.and_eq_true, decide_eq_true_eq]
    omega
  dsimp only [parseUsize]
  rw [if_pos (by simp [h1, h2])]
  exact digitsVal_digitsBytes n

theorem firstSubstrIdx_hash_none :
    ∀ (l : List Nat), ¬ 35 ∈ l → firstSubstrIdx [35] l = none
  | [], _ => rfl
  | b :: t, h => by
    dsimp only [firstSubstrIdx]
    have hb : b ≠ 35 := fun he => h (by rw [he]; exact List.mem_cons_self _ _)
    rw [if_neg ?_, firstSubstrIdx_hash_none t (fun ht => h (List.mem_cons_of_mem b ht))]
    · rfl
    · simp [List.isPrefixOf]
      intro he
      exact absurd he.symm hb

theorem firstSubstrIdx_hash_append :
    ∀ (p rest : List Nat), ¬ 35 ∈ p →
      firstSubstrIdx [35] (p ++ 35 :: rest) = some p.length
  | [], rest, _ => by
    dsimp only [firstSubstrIdx]
    rw [if_pos (by simp [List.isPrefixOf])]
    rfl
  | b :: t, rest, h => by
    dsimp only [firstSubstrIdx]
    simp only [List.append_eq]
    have hb : b ≠ 35 := fun he => h (by rw [he]; exact List.mem_cons_self _ _)
    rw [if_neg ?_, firstSubstrIdx_hash_append t rest (fun ht => h (List.mem_cons_of_mem b ht))]
    · rfl
    · simp [List.isPrefixOf]
      intro he
      exact absurd he.symm hb

theorem parse_mk (p : List Nat) (i : Nat) (h : ¬ 35 ∈ p) :
    parseDisplayName (mkDisplayName p i) = (p, i) := by
  dsimp only [mkDisplayName, parseDisplayName]
  by_cases hi : i = 0
  · rw [if_pos hi, firstSubstrIdx_hash_none p h, hi]
  · rw [if_neg hi]
    have hfa : p ++ [35] ++ digitsBytes i = p ++ 35 :: digitsBytes i := by
      simp
    rw [hfa, firstSubstrIdx_hash_append p (digitsBytes i) h]
    dsimp only
    rw [List.take_left' rfl]
    have hd : (p ++ 35 :: digitsBytes i).drop (p.length + 1) = digitsBytes i := by
      rw [show p ++ 35 :: digitsBytes i = (p ++ [35]) ++ digitsBytes i by simp]
      exact List.drop_left' (by simp)
    rw [hd, parseUsize_digitsBytes]

theorem mk_inj (p q : List Nat) (i j : Nat) (hp : ¬ 35 ∈ p) (hq : ¬ 35 ∈ q)
    (h : mkDisplayName p i = mkDisplayName q j) : p = q ∧ i = j := by
  have := congrArg parseDisplayName h
  rw [parse_mk p i hp, parse_mk q j hq] at this
  exact ⟨congrArg Prod.fst this, congrArg Prod.snd this⟩

theorem firstFreeIdx_le : ∀ (s : List Bool), firstFreeIdx s ≤ s.length
  | [] => Nat.le_refl 0
  | b :: t => by
    dsimp only [firstFreeIdx]
    split
    · have := firstFreeIdx_le t
      simp only [List.length_cons]
      omega
    · omega

theorem firstFreeIdx_spec :
    ∀ (s : List Bool), s.getD (firstFreeIdx s) false = false ∧
      ∀ j < firstFreeIdx s, s.getD j false = true
  | [] => ⟨rfl, fun j hj => absurd hj (by dsimp only [firstFreeIdx]; omega)⟩
  | b :: t => by
    dsimp only [firstFreeIdx]
    obtain ⟨ih1, ih2⟩ := firstFreeIdx_spec t
    split
    · rename_i hb
      refine ⟨by simpa using ih1, ?_⟩
      intro j hj
      cases j with
      | zero => simpa using hb
      | succ j' =>
        simp only [List.getD_cons_succ]
        exact ih2 j' (by omega)
    · rename_i hb
      simp only [Bool.not_eq_true] at hb
      exact ⟨by simpa using hb, fun j hj => absurd hj (by omega)⟩

theorem setEnabledFn_slots (reg : NameRegistry) (nm : List Nat) (b : Bool) :
    (setEnabledFn reg nm b).slots = reg.slots := rfl

theorem acquireIdx_lengths (reg : NameRegistry) (p : List Nat) :
    (acquireIdx reg p).2.lengths = reg.lengths ∧ (acquireIdx reg p).2.maxLen = reg.maxLen :=
  ⟨rfl, rfl⟩

theorem releaseIdx_lengths (reg : NameRegistry) (nm : List Nat) :
    (releaseIdx reg nm).lengths = reg.lengths ∧ (releaseIdx reg nm).maxLen = reg.maxLen := by
  dsimp only [releaseIdx]
  split
  · exact ⟨rfl, rfl⟩
  · split
    · exact ⟨rfl, rfl⟩
    · exact ⟨rfl, rfl⟩

theorem acquire_preserve (reg : NameRegistry) (p q : List Nat) (i : Nat)
    (h : slotAt reg.slots q i = true) :
    slotAt (acquireIdx reg p).2.slots q i = true := by
  dsimp only [slotAt, acquireIdx, updateSlots] at h ⊢
  by_cases hq : q = p
  · rw [hq] at h ⊢
    rw [if_pos rfl]
    split
    · rename_i hlen
      by_cases hi : firstFreeIdx (reg.slots p) = i
      · rw [← hi, getD_set_self true (reg.slots p) _ hlen]
      · rw [getD_set_ne true (reg.slots p) _ i hi]
        exact h
    · have hilen : i < (reg.slots p).length := by
        by_contra hc
        rw [getD_length_le (reg.slots p) i (by omega)] at h
        exact absurd h (by simp)
      rw [getD_append_left (reg.slots p) [true] i hilen]
      exact h
  · rw [if_neg hq]
    exact h

theorem acquire_new_slot (reg : NameRegistry) (p : List Nat) :
    slotAt (acquireIdx reg p).2.slots p (acquireIdx reg p).1 = true := by
  dsimp only [slotAt, acquireIdx, updateSlots]
  rw [if_pos rfl]
  split
  · rename_i hlen
    exact getD_set_self true (reg.slots p) _ hlen
  · rename_i hlen
    have hle := firstFreeIdx_le (reg.slots p)
    have heq : firstFreeIdx (reg.slots p) = (reg.slots p).length := by omega
    rw [heq]
    exact getD_append_last (reg.slots p) true

theorem acquire_free_slot (reg : NameRegistry) (p : List Nat) :
    slotAt reg.slots p (acquireIdx reg p).1 = false ∧
      ∀ j < (acquireIdx reg p).1, slotAt reg.slots p j = true := by
  dsimp only [slotAt, acquireIdx]
  exact firstFreeIdx_spec (reg.slots p)

theorem release_preserve (reg : NameRegistry) (nm q : List Nat) (i : Nat)
    (h : slotAt reg.slots q i = true)
    (hne : ¬ (q = (parseDisplayName nm).1 ∧ i = (parseDisplayName nm).2)) :
    slotAt (releaseIdx reg nm).slots q i = true := by
  dsimp only [slotAt, releaseIdx, updateSlots] at h ⊢
  by_cases hq : q = (parseDisplayName nm).1
  · have hi : i ≠ (parseDisplayName nm).2 := fun he => hne ⟨hq, he⟩
    rw [hq] at h ⊢
    split
    · exact h
    · split
      · rename_i hlt
        dsimp only [updateSlots]
        rw [if_pos rfl, getD_set_ne false _ _ i (fun he => hi he.symm)]
        exact h
      · rename_i hnil hlt
        dsimp only [updateSlots]
        rw [if_pos rfl]
        have hilen : i < (reg.slots (parseDisplayName nm).1).length := by
          by_contra hc
          rw [getD_length_le _ i (by omega)] at h
          exact absurd h (by simp)
        apply getD_popTrailing
        split
        · rename_i hsuf
          have hieq : i < (parseDisplayName nm).2 := by omega
          rw [getD_eraseIdx_lt _ _ i hieq]
          exact h
        · exact h
  · split
    · exact h
    · split
      · dsimp only [updateSlots]
        rw [if_neg hq]
        exact h
      · dsimp only [updateSlots]
        rw [if_neg hq]
        exact h

theorem liveInv_after_release (t : NameTrace) (hinv : LiveInv t) (r : NameRegistry)
    (hr : r.slots = t.reg.slots) (p : List Nat) (hp : p ∈ t.live) :
    (t.live.erase p).Pairwise (fun a b => a ≠ b) ∧
    ∀ nm ∈ t.live.erase p, ∃ P I, ¬ 35 ∈ P ∧ nm = mkDisplayName P I ∧
      slotAt (releaseIdx r p).slots P I = true := by
  have hnd : t.live.Nodup := hinv.1
  refine ⟨hnd.erase p, ?_⟩
  intro nm hnm
  obtain ⟨hne, hmem⟩ := (List.Nodup.mem_erase_iff hnd).1 hnm
  obtain ⟨P, I, hP, hmk, hslot⟩ := hinv.2 nm hmem
  obtain ⟨Pp, Ip, hPp, hmkp, hslotp⟩ := hinv.2 p hp
  refine ⟨P, I, hP, hmk, ?_⟩
  apply release_preserve
  · rw [hr]
    exact hslot
  · rw [hmkp, parse_mk Pp Ip hPp]
    rintro ⟨h1, h2⟩
    apply hne
    rw [hmk, hmkp, h1, h2]

theorem liveInv_after_alloc (r : NameRegistry) (L : List (List Nat)) (np : List Nat)
    (hnp : ¬ 35 ∈ np)
    (hL : L.Pairwise (fun a b => a ≠ b))
    (hrep : ∀ nm ∈ L, ∃ P I, ¬ 35 ∈ P ∧ nm = mkDisplayName P I ∧ slotAt r.slots P I = true) :
    (L ++ [mkDisplayName np (acquireIdx r np).1]).Pairwise (fun a b => a ≠ b) ∧
    ∀ nm ∈ L ++ [mkDisplayName np (acquireIdx r np).1], ∃ P I, ¬ 35 ∈ P ∧
      nm = mkDisplayName P I ∧ slotAt (acquireIdx r np).2.slots P I = true := by
  have hfresh : ∀ nm ∈ L, nm ≠ mkDisplayName np (acquireIdx r np).1 := by
    intro nm hnm he
    obtain ⟨P, I, hP, hmk, hslot⟩ := hrep nm hnm
    obtain ⟨h1, h2⟩ := mk_inj P np I _ hP hnp (hmk ▸ he)
    have hfree := (acquire_free_slot r np).1
    rw [← h2, ← h1] at hfree
    rw [hslot] at hfree
    exact absurd hfree (by simp)
  constructor
  · have hnd : L.Nodup := hL
    have : (L ++ [mkDisplayName np (acquireIdx r np).1]).Nodup := by
      rw [List.nodup_append]
      exact ⟨hnd, List.nodup_singleton _,
        fun x hx hx2 => hfresh x hx (List.mem_singleton.1 hx2)⟩
    exact this
  · intro nm hnm
    rcases List.mem_append.1 hnm with hin | hlast
    · obtain ⟨P, I, hP, hmk, hslot⟩ := hrep nm hin
      exact ⟨P, I, hP, hmk, acquire_preserve r np P I hslot⟩
    · refine ⟨np, (acquireIdx r np).1, hnp, List.mem_singleton.1 hlast, ?_⟩
      exact acquire_new_slot r np

theorem liveInv_step (t t' : NameTrace) (op : NameOp)
    (hinv : LiveInv t)
    (hpre : ∀ p npf, op = NameOp.change (some p) npf → p ∈ t.live)
    (happ : applyNameOp t op = some t') : LiveInv t' := by
  cases op with
  | setEnabled name enabled =>
    dsimp only [applyNameOp] at happ
    injection happ with he
    rw [← he]
    exact ⟨hinv.1, fun nm hnm => hinv.2 nm hnm⟩
  | change prev newPfx =>
    dsimp only [applyNameOp] at happ
    rw [Option.map_eq_some'] at happ
    obtain ⟨rr, hc, hf⟩ := happ
    cases prev with
    | none =>
      cases newPfx with
      | none => simp [changeName] at hc
      | some np =>
        simp only [changeName] at hc
        simp at hc
        obtain ⟨hnp, hrr⟩ := hc
        rw [← hrr] at hf
        dsimp only at hf
        rw [← hf]
        exact liveInv_after_alloc t.reg t.live np hnp hinv.1 hinv.2
    | some p =>
      have hp : p ∈ t.live := hpre p newPfx rfl
      cases newPfx with
      | none =>
        simp [changeName] at hc
        rw [← hc] at hf
        dsimp only at hf
        rw [← hf]
        obtain ⟨h1, h2⟩ := liveInv_after_release t hinv t.reg rfl p hp
        exact ⟨h1, h2⟩
      | some np =>
        simp only [changeName] at hc
        simp at hc
        obtain ⟨hnp, hrr⟩ := hc
        rw [← hrr] at hf
        dsimp only at hf
        rw [← hf]
        obtain ⟨h1, h2⟩ :=
          liveInv_after_release t hinv (setEnabledFn t.reg p false) rfl p hp
        exact liveInv_after_alloc
          (releaseIdx (setEnabledFn t.reg p false) p) (t.live.erase p) np hnp h1 h2

theorem liveInv_run :
    ∀ (ops : List NameOp) (t0 t : NameTrace), LiveInv t0 →
      wfAlloc t0 ops = true → runNameOps t0 ops = some t → LiveInv t
  | [], t0, t, hinv, _, hrun => by
    dsimp only [runNameOps] at hrun
    injection hrun with he
    rw [← he]
    exact hinv
  | op :: ops, t0, t, hinv, hwf, hrun => by
    dsimp only [runNameOps] at hrun
    dsimp only [wfAlloc] at hwf
    rw [Bool.and_eq_true] at hwf
    obtain ⟨hw1, hw2⟩ := hwf
    rcases happ : applyNameOp t0 op with _ | t1
    · rw [happ] at hrun
      exact absurd hrun (by simp)
    · rw [happ] at hrun hw2
      dsimp only at hrun hw2
      have hpre : ∀ p npf, op = NameOp.change (some p) npf → p ∈ t0.live := by
        intro p npf hop
        subst hop
        dsimp only at hw1
        simpa using hw1
      exact liveInv_run ops t1 t (liveInv_step t0 t1 op hinv hpre happ) hw2 hrun

/-- C5 (amended): under the allocation discipline the event loop obeys —
a `change` only ever releases a name that is currently live — any two
names allocated and not yet released are distinct; the name for slot 0 is
the bare prefix and the name for slot N ≥ 1 is the prefix, `#`, and the
decimal digits of N; and `acquire_prefix_index` hands out the smallest
free slot: the returned slot is free and every smaller slot is in use.
Without the discipline the distinctness fails: releasing the alias `h#01`
frees the slot of the live `h#1`, which is then handed out again. -/
theorem c5_live_names_distinct :
    (∀ (ops : List NameOp) (t : NameTrace), wfAlloc initNameTrace ops = true →
      runNameOps initNameTrace ops = some t →
      t.live.Pairwise (fun a b => a ≠ b)) ∧
    (∀ p : List Nat, mkDisplayName p 0 = p) ∧
    (∀ (p : List Nat) (i : Nat), 1 ≤ i →
      mkDisplayName p i = p ++ [35] ++ digitsBytes i) ∧
    (∀ (reg : NameRegistry) (p : List Nat),
      slotAt reg.slots p (acquireIdx reg p).1 = false ∧
      ∀ j < (acquireIdx reg p).1, slotAt reg.slots p j = true) := by
  refine ⟨?_, ?_, ?_, acquire_free_slot⟩
  · intro ops t hwf hrun
    have hinit : LiveInv initNameTrace :=
      ⟨List.Pairwise.nil, fun nm hnm => absurd hnm (List.not_mem_nil nm)⟩
    exact (liveInv_run ops initNameTrace t hinit hwf hrun).1
  · intro p
    dsimp only [mkDisplayName]
    rw [if_pos rfl]
  · intro p i hi
    dsimp only [mkDisplayName]
    rw [if_neg (by omega)]

/-- The distinctness conjunct of the registry theorem at a concrete
input: two allocations of the prefix `h` yield the distinct live names
`h` and `h#1`. -/
theorem c5_live_names_distinct_witness :
    (runNameOps initNameTrace
        [NameOp.change none (some (bytesOf "h")),
         NameOp.change none (some (bytesOf "h"))]).elim False
      (fun t => t.live.Pairwise (fun a b => a ≠ b)) := by
  rcases hrun : runNameOps initNameTrace
      [NameOp.change none (some (bytesOf "h")),
       NameOp.change none (some (bytesOf "h"))] with _ | t
  · have hs : (runNameOps initNameTrace
        [NameOp.change none (some (bytesOf "h")),
         NameOp.change none (some (bytesOf "h"))]).isSome = true := by decide
    rw [hrun] at hs
    exact absurd hs (by simp)
  · exact c5_live_names_distinct.1
      [NameOp.change none (some (bytesOf "h")),
       NameOp.change none (some (bytesOf "h"))] t (by decide) hrun

theorem le_maxKey : ∀ (l : List (Nat × Nat)) (kv : Nat × Nat), kv ∈ l → kv.1 ≤ maxKey l
  | [], kv, h => absurd h (List.not_mem_nil kv)
  | x :: t, kv, h => by
    dsimp only [maxKey, List.foldr]
    rcases List.mem_cons.1 h with he | ht
    · rw [he]
      exact Nat.le_max_left _ _
    · exact Nat.le_trans (le_maxKey t kv ht) (Nat.le_max_right _ _)

theorem maxKey_le : ∀ (l : List (Nat × Nat)) (m : Nat), (∀ kv ∈ l, kv.1 ≤ m) → maxKey l ≤ m
  | [], m, _ => Nat.zero_le m
  | x :: t, m, h => by
    have hstep : maxKey (x :: t) = max x.1 (maxKey t) := rfl
    rw [hstep]
    have h1 : x.1 ≤ m := h x (List.mem_cons_self x t)
    have h2 : maxKey t ≤ m := maxKey_le t m (fun kv hkv => h kv (List.mem_cons_of_mem x hkv))
    omega

theorem le_maxLenOf : ∀ (names : List (List Nat)) (n : List Nat), n ∈ names →
    n.length ≤ maxLenOf names
  | [], n, h => absurd h (List.not_mem_nil n)
  | x :: t, n, h => by
    dsimp only [maxLenOf, List.foldr]
    rcases List.mem_cons.1 h with he | ht
    · rw [he]
      exact Nat.le_max_left _ _
    · exact Nat.le_trans (le_maxLenOf t n ht) (Nat.le_max_right _ _)

theorem maxLenOf_le : ∀ (names : List (List Nat)) (m : Nat),
    (∀ n ∈ names, n.length ≤ m) → maxLenOf names ≤ m
  | [], m, _ => Nat.zero_le m
  | x :: t, m, h => by
    have hstep : maxLenOf (x :: t) = max x.length (maxLenOf t) := rfl
    rw [hstep]
    have h1 : x.length ≤ m := h x (List.mem_cons_self x t)
    have h2 : maxLenOf t ≤ m :=
      maxLenOf_le t m (fun n hn => h n (List.mem_cons_of_mem x hn))
    omega

theorem countLen_pos (names : List (List Nat)) (n : List Nat) (h : n ∈ names) :
    0 < countLen names n.length := by
  dsimp only [countLen]
  have : n ∈ names.filter (fun m => m.length = n.length) :=
    List.mem_filter.2 ⟨h, by simp⟩
  exact List.length_pos.2 (fun he => by rw [he] at this; exact List.not_mem_nil n this)

theorem countLen_pos_mem (names : List (List Nat)) (L : Nat)
    (h : 0 < countLen names L) : ∃ n ∈ names, n.length = L := by
  dsimp only [countLen] at h
  rw [List.length_pos] at h
  obtain ⟨n, hn⟩ := List.exists_mem_of_ne_nil _ h
  obtain ⟨hmem, hlen⟩ := List.mem_filter.1 hn
  exact ⟨n, hmem, by simpa using hlen⟩

theorem countLen_append_single (names : List (List Nat)) (nm : List Nat) (L : Nat) :
    countLen (names ++ [nm]) L =
      countLen names L + (if nm.length = L then 1 else 0) := by
  dsimp only [countLen]
  rw [List.filter_append, List.length_append]
  congr 1
  dsimp only [List.filter]
  split
  · rename_i hh
    rw [if_pos (by simpa using hh)]
    rfl
  · rename_i hh
    rw [if_neg (by simpa using hh)]
    rfl

theorem countLen_cons (x : List Nat) (names : List (List Nat)) (L : Nat) :
    countLen (x :: names) L = countLen names L + (if x.length = L then 1 else 0) := by
  dsimp only [countLen, List.filter]
  split
  · rename_i hh
    rw [if_pos (by simpa using hh)]
    simp [Nat.add_comm]
  · rename_i hh
    rw [if_neg (by simpa using hh)]
    omega

theorem countLen_erase :
    ∀ (names : List (List Nat)) (nm : List Nat), nm ∈ names → ∀ L,
      countLen names L = countLen (names.erase nm) L + (if nm.length = L then 1 else 0)
  | [], nm, hmem, _ => absurd hmem (List.not_mem_nil nm)
  | x :: t, nm, hmem, L => by
    rw [List.erase_cons]
    by_cases hx : x = nm
    · rw [if_pos (by rw [hx]; exact beq_self_eq_true nm), countLen_cons, hx]
    · rw [if_neg (by simp [hx]), countLen_cons]
      have hmt : nm ∈ t := by
        rcases List.mem_cons.1 hmem with he | ht
        · exact absurd he.symm hx
        · exact ht
      rw [countLen_erase t nm hmt L, countLen_cons]
      omega

theorem bumpLen_spec (k : Nat) :
    ∀ (l : List (Nat × Nat)), (l.map Prod.fst).Nodup →
      ((bumpLen k l).map Prod.fst).Nodup ∧
      k ∈ (bumpLen k l).map Prod.fst ∧
      (∀ kv ∈ l, kv.1 ≠ k → kv ∈ bumpLen k l) ∧
      (∀ kv ∈ bumpLen k l, (kv.1 ≠ k ∧ kv ∈ l) ∨
        (kv.1 = k ∧ ((¬ k ∈ l.map Prod.fst ∧ kv.2 = 1) ∨ ∃ v, (k, v) ∈ l ∧ kv.2 = v + 1)))
  | [], _ => by
    refine ⟨List.nodup_singleton k, List.mem_singleton.2 rfl, fun kv hkv => absurd hkv (List.not_mem_nil kv), ?_⟩
    intro kv hkv
    dsimp only [bumpLen] at hkv
    rw [List.mem_singleton] at hkv
    right
    rw [hkv]
    exact ⟨rfl, Or.inl ⟨by simp, rfl⟩⟩
  | (k', v) :: t, hnd => by
    rw [List.map_cons, List.nodup_cons] at hnd
    obtain ⟨hknotin, hndt⟩ := hnd
    dsimp only [bumpLen]
    by_cases hk : k' = k
    · rw [if_pos hk]
      refine ⟨?_, ?_, ?_, ?_⟩
      · rw [List.map_cons, List.nodup_cons]
        exact ⟨hknotin, hndt⟩
      · rw [List.map_cons]
        exact List.mem_cons.2 (Or.inl hk.symm)
      · intro kv hkv hne
        rcases List.mem_cons.1 hkv with he | ht
        · rw [he] at hne
          exact absurd hk hne
        · exact List.mem_cons_of_mem _ ht
      · intro kv hkv
        rcases List.mem_cons.1 hkv with he | ht
        · right
          rw [he]
          exact ⟨hk, Or.inr ⟨v, by rw [← hk]; exact List.mem_cons_self _ _, rfl⟩⟩
        · left
          refine ⟨?_, List.mem_cons_of_mem _ ht⟩
          intro hkvk
          apply hknotin
          show k' ∈ List.map Prod.fst t
          rw [hk, ← hkvk]
          exact List.mem_map_of_mem Prod.fst ht
    · rw [if_neg hk]
      obtain ⟨ih1, ih2, ih3, ih4⟩ := bumpLen_spec k t hndt
      refine ⟨?_, ?_, ?_, ?_⟩
      · rw [List.map_cons, List.nodup_cons]
        refine ⟨?_, ih1⟩
        intro hin
        obtain ⟨kv, hkv, hfst⟩ := List.mem_map.1 hin
        rcases ih4 kv hkv with ⟨hne, hmem⟩ | ⟨heq, _⟩
        · apply hknotin
          rw [← hfst]
          exact List.mem_map_of_mem Prod.fst hmem
        · apply hk
          have h2 : (k', v).1 = k := by rw [← hfst]; exact heq
          exact h2
      · rw [List.map_cons]
        exact List.mem_cons_of_mem _ ih2
      · intro kv hkv hne
        rcases List.mem_cons.1 hkv with he | ht
        · rw [he]
          exact List.mem_cons_self _ _
        · exact List.mem_cons_of_mem _ (ih3 kv ht hne)
      · intro kv hkv
        rcases List.mem_cons.1 hkv with he | ht
        · left
          rw [he]
          exact ⟨hk, List.mem_cons_self _ _⟩
        · rcases ih4 kv ht with ⟨hne, hmem⟩ | ⟨heq, hsub⟩
          · exact Or.inl ⟨hne, List.mem_cons_of_mem _ hmem⟩
          · right
            refine ⟨heq, ?_⟩
            rcases hsub with ⟨hnotin, hv1⟩ | ⟨v', hv', hval⟩
            · left
              refine ⟨?_, hv1⟩
              rw [List.map_cons]
              intro hin
              rcases List.mem_cons.1 hin with he2 | ht2
              · exact hk he2.symm
              · exact hnotin ht2
            · exact Or.inr ⟨v', List.mem_cons_of_mem _ hv', hval⟩

theorem dropLen_spec (k : Nat) :
    ∀ (l : List (Nat × Nat)), (l.map Prod.fst).Nodup →
      ((dropLen k l).map Prod.fst).Nodup ∧
      (∀ kv ∈ l, kv.1 ≠ k → kv ∈ dropLen k l) ∧
      (∀ v, (k, v) ∈ l → v - 1 ≠ 0 → (k, v - 1) ∈ dropLen k l) ∧
      (∀ kv ∈ dropLen k l, (kv.1 ≠ k ∧ kv ∈ l) ∨
        (kv.1 = k ∧ ∃ v, (k, v) ∈ l ∧ kv.2 = v - 1 ∧ v - 1 ≠ 0))
  | [], _ => by
    exact ⟨by simp [dropLen], fun kv hkv => absurd hkv (List.not_mem_nil kv),
      fun v hv => absurd hv (List.not_mem_nil _),
      fun kv hkv => absurd hkv (List.not_mem_nil kv)⟩
  | (k', v) :: t, hnd => by
    rw [List.map_cons, List.nodup_cons] at hnd
    obtain ⟨hknotin, hndt⟩ := hnd
    dsimp only [dropLen]
    by_cases hk : k' = k
    · rw [if_pos hk]
      by_cases hv0 : v - 1 = 0
      · rw [if_pos hv0]
        refine ⟨hndt, ?_, ?_, ?_⟩
        · intro kv hkv hne
          rcases List.mem_cons.1 hkv with he | ht
          · rw [he] at hne
            exact absurd hk hne
          · exact ht
        · intro v' hv' hne
          rcases List.mem_cons.1 hv' with he | ht
          · have : v' = v := (Prod.mk.injEq .. ▸ he).2
            rw [this] at hne
            exact absurd hv0 hne
          · refine absurd ?_ hknotin
            show k' ∈ List.map Prod.fst t
            rw [hk]
            exact List.mem_map_of_mem Prod.fst ht
        · intro kv hkv
          left
          refine ⟨?_, List.mem_cons_of_mem _ hkv⟩
          intro hkvk
          apply hknotin
          show k' ∈ List.map Prod.fst t
          rw [hk, ← hkvk]
          exact List.mem_map_of_mem Prod.fst hkv
      · rw [if_neg hv0]
        refine ⟨?_, ?_, ?_, ?_⟩
        · rw [List.map_cons, List.nodup_cons]
          exact ⟨hknotin, hndt⟩
        · intro kv hkv hne
          rcases List.mem_cons.1 hkv with he | ht
          · rw [he] at hne
            exact absurd hk hne
          · exact List.mem_cons_of_mem _ ht
        · intro v' hv' hne
          rcases List.mem_cons.1 hv' with he | ht
          · have hvv : v' = v := (Prod.mk.injEq .. ▸ he).2
            rw [hvv]
            exact List.mem_cons.2 (Or.inl (by rw [hk]))
          · refine absurd ?_ hknotin
            show k' ∈ List.map Prod.fst t
            rw [hk]
            exact List.mem_map_of_mem Prod.fst ht
        · intro kv hkv
          rcases List.mem_cons.1 hkv with he | ht
          · right
            rw [he]
            refine ⟨hk, v, ?_, rfl, hv0⟩
            rw [← hk]
            exact List.mem_cons_self _ _
          · left
            refine ⟨?_, List.mem_cons_of_mem _ ht⟩
            intro hkvk
            apply hknotin
            show k' ∈ List.map Prod.fst t
            rw [hk, ← hkvk]
            exact List.mem_map_of_mem Prod.fst ht
    · rw [if_neg hk]
      obtain ⟨ih1, ih2, ih3, ih4⟩ := dropLen_spec k t hndt
      refine ⟨?_, ?_, ?_, ?_⟩
      · rw [List.map_cons, List.nodup_cons]
        refine ⟨?_, ih1⟩
        intro hin
        obtain ⟨kv, hkv, hfst⟩ := List.mem_map.1 hin
        rcases ih4 kv hkv with ⟨hne, hmem⟩ | ⟨heq, _⟩
        · apply hknotin
          rw [← hfst]
          exact List.mem_map_of_mem Prod.fst hmem
        · apply hk
          have h2 : (k', v).1 = k := by rw [← hfst]; exact heq
          exact h2
      · intro kv hkv hne
        rcases List.mem_cons.1 hkv with he | ht
        · rw [he]
          exact List.mem_cons_self _ _
        · exact List.mem_cons_of_mem _ (ih2 kv ht hne)
      · intro v' hv' hne
        rcases List.mem_cons.1 hv' with he | ht
        · exact absurd (congrArg Prod.fst he).symm hk
        · exact List.mem_cons_of_mem _ (ih3 v' ht hne)
      · intro kv hkv
        rcases List.mem_cons.1 hkv with he | ht
        · left
          rw [he]
          exact ⟨hk, List.mem_cons_self _ _⟩
        · rcases ih4 kv ht with ⟨hne, hmem⟩ | ⟨heq, v', hv', hval⟩
          · exact Or.inl ⟨hne, List.mem_cons_of_mem _ hmem⟩
          · exact Or.inr ⟨heq, v', List.mem_cons_of_mem _ hv', hval⟩

theorem lenInv_enable (reg : NameRegistry) (enabled : List (List Nat)) (nm : List Nat)
    (hinv : LenInv reg enabled) :
    LenInv (setEnabledFn reg nm true) (enabled ++ [nm]) := by
  obtain ⟨hmax, hnd, hval, hcomp⟩ := hinv
  obtain ⟨s1, s2, s3, s4⟩ := bumpLen_spec nm.length reg.lengths hnd
  refine ⟨rfl, s1, ?_, ?_⟩
  · intro kv hkv
    rcases s4 kv hkv with ⟨hne, hmem⟩ | ⟨heq, hsub⟩
    · obtain ⟨hv, hp⟩ := hval kv hmem
      refine ⟨?_, hp⟩
      rw [countLen_append_single, if_neg (fun he => hne he.symm)]
      omega
    · rw [countLen_append_single, heq, if_pos rfl]
      rcases hsub with ⟨hnotin, h1⟩ | ⟨v, hv, hval2⟩
      · have hc0 : countLen enabled nm.length = 0 := by
          by_contra hc
          exact hnotin (hcomp nm.length (by omega))
        rw [hc0]
        omega
      · obtain ⟨hv2, _⟩ := hval (nm.length, v) hv
        dsimp only at hv2
        omega
  · intro L hL
    rw [countLen_append_single] at hL
    by_cases hLk : nm.length = L
    · rw [← hLk]
      exact s2
    · rw [if_neg hLk] at hL
      obtain ⟨kv, hkv, hfst⟩ := List.mem_map.1 (hcomp L (by omega))
      have hmem2 : kv ∈ bumpLen nm.length reg.lengths :=
        s3 kv hkv (by rw [hfst]; exact fun he => hLk he.symm)
      rw [← hfst]
      exact List.mem_map_of_mem Prod.fst hmem2

theorem lenInv_disable (reg : NameRegistry) (enabled : List (List Nat)) (nm : List Nat)
    (hmem : nm ∈ enabled) (hinv : LenInv reg enabled) :
    LenInv (setEnabledFn reg nm false) (enabled.erase nm) := by
  obtain ⟨hmax, hnd, hval, hcomp⟩ := hinv
  obtain ⟨s1, s2, s3, s4⟩ := dropLen_spec nm.length reg.lengths hnd
  have hcl := countLen_erase enabled nm hmem
  refine ⟨rfl, s1, ?_, ?_⟩
  · intro kv hkv
    rcases s4 kv hkv with ⟨hne, hmem2⟩ | ⟨heq, v, hv, hval2, hne0⟩
    · obtain ⟨hv2, hp⟩ := hval kv hmem2
      refine ⟨?_, hp⟩
      have hδ := hcl kv.1
      rw [if_neg (fun he => hne he.symm)] at hδ
      omega
    · obtain ⟨hv2, _⟩ := hval (nm.length, v) hv
      dsimp only at hv2
      have hδ := hcl kv.1
      rw [heq, if_pos rfl] at hδ
      rw [heq]
      constructor
      · omega
      · omega
  · intro L hL
    have hδ := hcl L
    by_cases hLk : nm.length = L
    · rw [if_pos hLk] at hδ
      have h2 : 0 < countLen enabled L := by omega
      obtain ⟨kv, hkv, hfst⟩ := List.mem_map.1 (hcomp L h2)
      obtain ⟨hv2, hp⟩ := hval kv hkv
      have hkveq : kv = (nm.length, kv.2) := by
        rw [Prod.ext_iff]
        exact ⟨hfst.trans hLk.symm, rfl⟩
      have hne0 : kv.2 - 1 ≠ 0 := by
        rw [hfst] at hv2
        omega
      have hdropmem : (nm.length, kv.2 - 1) ∈ dropLen nm.length reg.lengths :=
        s3 kv.2 (hkveq ▸ hkv) hne0
      rw [← hLk]
      exact List.mem_map_of_mem Prod.fst hdropmem
    · rw [if_neg hLk] at hδ
      have h2 : 0 < countLen enabled L := by omega
      obtain ⟨kv, hkv, hfst⟩ := List.mem_map.1 (hcomp L h2)
      have hmem2 : kv ∈ dropLen nm.length reg.lengths :=
        s2 kv hkv (by rw [hfst]; exact fun he => hLk he.symm)
      rw [← hfst]
      exact List.mem_map_of_mem Prod.fst hmem2

theorem lenInv_transfer (r1 r2 : NameRegistry) (enabled : List (List Nat))
    (hl : r2.lengths = r1.lengths) (hm : r2.maxLen = r1.maxLen)
    (hinv : LenInv r1 enabled) : LenInv r2 enabled := by
  obtain ⟨h1, h2, h3, h4⟩ := hinv
  exact ⟨by rw [hm, hl]; exact h1, by rw [hl]; exact h2,
    by rw [hl]; exact h3, by rw [hl]; exact h4⟩

theorem lenInv_maxLen (reg : NameRegistry) (enabled : List (List Nat))
    (hinv : LenInv reg enabled) : reg.maxLen = maxLenOf enabled := by
  obtain ⟨hmax, hnd, hval, hcomp⟩ := hinv
  rw [hmax]
  apply Nat.le_antisymm
  · apply maxKey_le
    intro kv hkv
    obtain ⟨hv, hp⟩ := hval kv hkv
    obtain ⟨n, hn, hlen⟩ := countLen_pos_mem enabled kv.1 (by omega)
    rw [← hlen]
    exact le_maxLenOf enabled n hn
  · apply maxLenOf_le
    intro n hn
    obtain ⟨kv, hkv, hfst⟩ := List.mem_map.1 (hcomp n.length (countLen_pos enabled n hn))
    rw [← hfst]
    exact le_maxKey reg.lengths kv hkv

theorem lenInv_step (t t' : NameTrace) (op : NameOp)
    (hinv : LenInv t.reg t.enabledNames)
    (hpre1 : ∀ n b, op = NameOp.setEnabled n b → (b = true ∨ n ∈ t.enabledNames))
    (hpre2 : ∀ p np, op = NameOp.change (some p) (some np) → p ∈ t.enabledNames)
    (happ : applyNameOp t op = some t') : LenInv t'.reg t'.enabledNames := by
  cases op with
  | setEnabled name en =>
    dsimp only [applyNameOp] at happ
    injection happ with he
    rw [← he]
    cases en with
    | true => exact lenInv_enable t.reg t.enabledNames name hinv
    | false =>
      have hmem : name ∈ t.enabledNames := by
        rcases hpre1 name false rfl with h | h
        · exact absurd h (by simp)
        · exact h
      exact lenInv_disable t.reg t.enabledNames name hmem hinv
  | change prev newPfx =>
    dsimp only [applyNameOp] at happ
    rw [Option.map_eq_some'] at happ
    obtain ⟨rr, hc, hf⟩ := happ
    cases prev with
    | none =>
      cases newPfx with
      | none => simp [changeName] at hc
      | some np =>
        simp only [changeName] at hc
        simp at hc
        obtain ⟨hnp, hrr⟩ := hc
        rw [← hrr] at hf
        dsimp only at hf
        rw [← hf]
        apply lenInv_enable
        apply lenInv_transfer t.reg _ _ (acquireIdx_lengths t.reg np).1
          (acquireIdx_lengths t.reg np).2 hinv
    | some p =>
      cases newPfx with
      | none =>
        simp [changeName] at hc
        rw [← hc] at hf
        dsimp only at hf
        rw [← hf]
        apply lenInv_transfer t.reg _ _ (releaseIdx_lengths t.reg p).1
          (releaseIdx_lengths t.reg p).2 hinv
      | some np =>
        have hp : p ∈ t.enabledNames := hpre2 p np rfl
        simp only [changeName] at hc
        simp at hc
        obtain ⟨hnp, hrr⟩ := hc
        rw [← hrr] at hf
        dsimp only at hf
        rw [← hf]
        apply lenInv_enable
        apply lenInv_transfer (releaseIdx (setEnabledFn t.reg p false) p) _ _
          (acquireIdx_lengths _ np).1 (acquireIdx_lengths _ np).2
        apply lenInv_transfer (setEnabledFn t.reg p false) _ _
          (releaseIdx_lengths _ p).1 (releaseIdx_lengths _ p).2
        exact lenInv_disable t.reg t.enabledNames p hp hinv

theorem lenInv_run :
    ∀ (ops : List NameOp) (t0 t : NameTrace), LenInv t0.reg t0.enabledNames →
      wfToggle t0 ops = true → runNameOps t0 ops = some t →
      LenInv t.reg t.enabledNames
  | [], t0, t, hinv, _, hrun => by
    dsimp only [runNameOps] at hrun
    injection hrun with he
    rw [← he]
    exact hinv
  | op :: ops, t0, t, hinv, hwf, hrun => by
    dsimp only [runNameOps] at hrun
    dsimp only [wfToggle] at hwf
    rw [Bool.and_eq_true] at hwf
    obtain ⟨hw1, hw2⟩ := hwf
    rcases happ : applyNameOp t0 op with _ | t1
    · rw [happ] at hrun
      exact absurd hrun (by simp)
    · rw [happ] at hrun hw2
      dsimp only at hrun hw2
      have hpre1 : ∀ n b, op = NameOp.setEnabled n b →
          (b = true ∨ n ∈ t0.enabledNames) := by
        intro n b hop
        subst hop
        dsimp only at hw1
        rw [Bool.or_eq_true] at hw1
        rcases hw1 with h | h
        · exact Or.inl h
        · exact Or.inr (by simpa using h)
      have hpre2 : ∀ p np, op = NameOp.change (some p) (some np) →
          p ∈ t0.enabledNames := by
        intro p np hop
        subst hop
        dsimp only at hw1
        simpa using hw1
      exact lenInv_run ops t1 t (lenInv_step t0 t1 op hinv hpre1 hpre2 happ) hw2 hrun

/-- C6 (amended): after any sequence of `change` and `set_enabled`
operations in which a name is only disabled while currently marked
enabled — the discipline every caller follows — the cached
`max_display_name_length` equals the maximum length among the names
currently marked enabled, and 0 when none is enabled.  Unconditionally
the claim fails: disabling a never-enabled name steals the length count
of an unrelated enabled name. -/
theorem c6_max_display_len (ops : List NameOp) (t : NameTrace)
    (hwf : wfToggle initNameTrace ops = true)
    (hrun : runNameOps initNameTrace ops = some t) :
    t.reg.maxLen = maxLenOf t.enabledNames := by
  have hinit : LenInv initNameTrace.reg initNameTrace.enabledNames := by
    refine ⟨rfl, List.nodup_nil, fun kv hkv => absurd hkv (List.not_mem_nil kv), ?_⟩
    intro L hL
    simp [countLen, initNameTrace] at hL
  exact lenInv_maxLen _ _ (lenInv_run ops initNameTrace t hinit hwf hrun)

/-- The length theorem at a concrete input: after enabling the single
name `aaaa`, the cached maximum is the length of the enabled names. -/
theorem c6_max_display_len_witness :
    (runNameOps initNameTrace [NameOp.setEnabled (bytesOf "aaaa") true]).elim False
      (fun t => t.reg.maxLen = maxLenOf t.enabledNames) := by
  rcases hrun : runNameOps initNameTrace
      [NameOp.setEnabled (bytesOf "aaaa") true] with _ | t
  · have hs : (runNameOps initNameTrace
        [NameOp.setEnabled (bytesOf "aaaa") true]).isSome = true := by decide
    rw [hrun] at hs
    exact absurd hs (by simp)
  · exact c6_max_display_len [NameOp.setEnabled (bytesOf "aaaa") true] t (by decide) hrun
